import Mathlib

/-!
Verification of the local-db core (daviduhlir/local-db).

This file gives a shallow embedding of the data model and operations of the
repository's JSON document store and proves/refutes the frozen claims about it:

* the key encoding `serializeKeyByValue` (src/lib/components/JsonDBIndex.ts),
  with the numeric part delegated by the source to the external `charwise`
  package and therefore modelled from the spec as an explicit order-preserving
  decimal encoding;
* the secondary index engine (forward/backward maps, add/remove item);
* the repository CRUD operations insert/edit/delete/get (JsonDBRepository);
* the reference-counted open/close of the storage handle (src/lib/DB/LevelDB.ts);
* the bucket-filtering query evaluation (JsonDBIndex.query).

Entities are JSON-like tagged values; the JavaScript `JSON.stringify`/`JSON.parse`
persistence round-trip is modelled explicitly, because it is observable (for
example `Date` values are persisted as ISO strings).
-/

namespace LocalDbModel

/-! ## Lexicographic string order (JavaScript `<` on strings) -/

/-- Code-point-wise lexicographic strict order on character lists; this is the
order JavaScript uses when comparing strings with `<`. -/
def lexLt : List Char → List Char → Bool
  | [], [] => false
  | [], _ :: _ => true
  | _ :: _, [] => false
  | a :: as, b :: bs =>
    if a.toNat < b.toNat then true
    else if b.toNat < a.toNat then false
    else lexLt as bs

/-- Lexicographic strict order on strings. -/
def strLt (a b : String) : Bool := lexLt a.data b.data

/-- Lexicographic at-most order on strings (JavaScript `<=`). -/
def strLe (a b : String) : Bool := strLt a b || a == b

theorem lexLt_head {a b : Char} (x y : List Char) (h : a.toNat < b.toNat) :
    lexLt (a :: x) (b :: y) = true := by
  simp [lexLt, h]

theorem lexLt_head_false {a b : Char} (x y : List Char) (h : b.toNat < a.toNat) :
    lexLt (a :: x) (b :: y) = false := by
  simp [lexLt, h, Nat.lt_asymm h]

theorem lexLt_cons_same (c : Char) (x y : List Char) :
    lexLt (c :: x) (c :: y) = lexLt x y := by
  simp [lexLt]

theorem lexLt_append_same (p : List Char) (x y : List Char) :
    lexLt (p ++ x) (p ++ y) = lexLt x y := by
  induction p with
  | nil => rfl
  | cons c t ih => simpa [lexLt_cons_same] using ih

theorem lexLt_nil_cons (c : Char) (y : List Char) :
    lexLt [] (c :: y) = true := rfl

/-- If the left string runs into a strictly smaller character while the right
string is still inside its longer run of `e`s, the left one is smaller. -/
theorem lexLt_replicate_left {n m : ℕ} (e : Char) (x y : List Char)
    (hnm : n < m) (hx : x ≠ []) (hhead : ∀ c ∈ x.head?, c.toNat < e.toNat) :
    lexLt (List.replicate n e ++ x) (List.replicate m e ++ y) = true := by
  induction n generalizing m with
  | zero =>
    cases x with
    | nil => exact absurd rfl hx
    | cons c t =>
      cases m with
      | zero => omega
      | succ m' =>
        simp only [List.replicate, List.nil_append, List.cons_append]
        exact lexLt_head _ _ (hhead c rfl)
  | succ n' ih =>
    cases m with
    | zero => omega
    | succ m' =>
      simp only [List.replicate, List.cons_append, lexLt_cons_same]
      exact ih (by omega)

/-- If the right string runs into a strictly larger character while the left
string is still inside its longer run of `e`s, the left one is smaller. -/
theorem lexLt_replicate_right {n m : ℕ} (e : Char) (x y : List Char)
    (hnm : m < n) (hy : y ≠ []) (hhead : ∀ c ∈ y.head?, e.toNat < c.toNat) :
    lexLt (List.replicate n e ++ x) (List.replicate m e ++ y) = true := by
  induction m generalizing n with
  | zero =>
    cases y with
    | nil => exact absurd rfl hy
    | cons c t =>
      cases n with
      | zero => omega
      | succ n' =>
        simp only [List.replicate, List.nil_append, List.cons_append]
        exact lexLt_head _ _ (hhead c rfl)
  | succ m' ih =>
    cases n with
    | zero => omega
    | succ n' =>
      simp only [List.replicate, List.cons_append, lexLt_cons_same]
      exact ih (by omega)

/-! ## Decimal numbers

JavaScript numbers (finite IEEE doubles) are modelled as decimal rationals
`m * 10 ^ e`; every finite double is such a number. -/

/-- A decimal rational `m * 10 ^ e`, the model of a finite JavaScript number. -/
structure Dec where
  m : Int
  e : Int
deriving DecidableEq, Repr

/-- The rational value of a decimal. -/
def Dec.toRat (d : Dec) : ℚ := (d.m : ℚ) * (10 : ℚ) ^ d.e

/-! ## The order-preserving numeric key encoding

The source (src/lib/components/JsonDBIndex.ts) delegates numeric key encoding
to the external `charwise` package, whose code is not part of this repository.
Modelled from the spec: "Numbers → order-preserving numeric encoding (handles
negative/fractional values without breaking lexicographic order)". The model
is an explicit sign/exponent/mantissa decimal encoding, proved strictly
monotone w.r.t. lexicographic string order below. -/

/-- Fuel-driven factor-of-ten stripping (structural recursion, so concrete
instances reduce inside the kernel); fuel `n` always suffices. -/
def stripZerosAux : ℕ → ℕ → ℕ × ℕ
  | 0, n => (n, 0)
  | fuel + 1, n =>
    if n ≠ 0 ∧ n % 10 = 0 then
      ((stripZerosAux fuel (n / 10)).1, (stripZerosAux fuel (n / 10)).2 + 1)
    else (n, 0)

/-- Strip factors of ten: returns `(n', t)` with `n = n' * 10 ^ t` and,
for `n ≠ 0`, `¬ 10 ∣ n'`. -/
def stripZeros (n : ℕ) : ℕ × ℕ := stripZerosAux n n

/-- Fuel-driven little-endian base-10 digits (structural recursion). -/
def digitsAux10 : ℕ → ℕ → List ℕ
  | 0, _ => []
  | fuel + 1, n => if n = 0 then [] else n % 10 :: digitsAux10 fuel (n / 10)

/-- Big-endian (most significant first) decimal digits of a natural number. -/
def mantissaDigits (n : ℕ) : List ℕ := (digitsAux10 n n).reverse

theorem digitsAux10_eq : ∀ fuel n, n ≤ fuel → digitsAux10 fuel n = Nat.digits 10 n := by
  intro fuel
  induction fuel with
  | zero =>
    intro n hn
    have h0 : n = 0 := Nat.le_zero.mp hn
    subst h0
    simp [digitsAux10]
  | succ fuel ih =>
    intro n hn
    unfold digitsAux10
    by_cases h0 : n = 0
    · subst h0
      simp
    · rw [if_neg h0]
      rw [Nat.digits_def' (by norm_num : (1:ℕ) < 10) (Nat.pos_of_ne_zero h0)]
      have hdiv : n / 10 ≤ fuel := by
        have : n / 10 < n := Nat.div_lt_self (Nat.pos_of_ne_zero h0) (by norm_num)
        omega
      rw [ih _ hdiv]

theorem mantissaDigits_eq (n : ℕ) : mantissaDigits n = (Nat.digits 10 n).reverse := by
  unfold mantissaDigits
  rw [digitsAux10_eq n n le_rfl]

/-- Value of a big-endian digit list. -/
def bval : List ℕ → ℕ
  | [] => 0
  | d :: t => d * 10 ^ t.length + bval t

/-- The character for a decimal digit. -/
def digitChar (d : ℕ) : Char := Char.ofNat (48 + d)

/-- Order-reversed digit characters, used inside the encodings of negative
numbers (digit `d` maps to code point `115 - d`, letters `j`‥`s`). -/
def compDigitChar (d : ℕ) : Char := Char.ofNat (115 - d)

/-- Exponent block of a positive number's encoding: larger exponents yield
lexicographically larger blocks, whatever follows. -/
def expChars (k : Int) : List Char :=
  if 0 ≤ k then List.replicate (k.toNat + 1) 'P'
  else 'L' :: List.replicate ((-k).toNat - 1) '0'

/-- Exponent block of a negative number's encoding: larger exponents (larger
absolute values) yield lexicographically smaller blocks. -/
def negExpChars (k : Int) : List Char :=
  if 0 ≤ k then List.replicate (k.toNat + 1) 'A'
  else 'Q' :: List.replicate ((-k).toNat - 1) '~'

/-- Modelled from the spec: the `charwise`-style order-preserving encoding of a
number. Zero encodes as `"F"`; a positive number `B * 10 ^ (k - n + 1)`
(mantissa digits `d1…dn`, `d1 ≠ 0 ≠ dn`) encodes as
`'T' :: expChars k ++ digits ++ "!"`, a negative one as
`'D' :: negExpChars k ++ reversed digits ++ "~"`. -/
def charwiseEncode (d : Dec) : String :=
  if d.m = 0 then "F"
  else
    let p := stripZeros d.m.natAbs
    let D := mantissaDigits p.1
    let k : Int := (D.length : Int) - 1 + d.e + (p.2 : Int)
    if 0 < d.m then ⟨'T' :: (expChars k ++ (D.map digitChar ++ ['!']))⟩
    else ⟨'D' :: (negExpChars k ++ (D.map compDigitChar ++ ['~']))⟩

/-! ### Basic facts about digits, `bval` and `stripZeros` -/

theorem digitChar_toNat {d : ℕ} (h : d < 10) : (digitChar d).toNat = 48 + d := by
  interval_cases d <;> rfl

theorem compDigitChar_toNat {d : ℕ} (h : d < 10) : (compDigitChar d).toNat = 115 - d := by
  interval_cases d <;> rfl

theorem bval_append_single (xs : List ℕ) (a : ℕ) :
    bval (xs ++ [a]) = 10 * bval xs + a := by
  induction xs with
  | nil => simp [bval]
  | cons d t ih =>
    have hl : (t ++ [a]).length = t.length + 1 := by simp
    simp only [List.cons_append, List.append_eq, bval, hl, ih]
    ring

theorem bval_reverse (l : List ℕ) : bval l.reverse = Nat.ofDigits 10 l := by
  induction l with
  | nil => simp [bval, Nat.ofDigits]
  | cons d t ih =>
    simp only [List.reverse_cons, bval_append_single, ih, Nat.ofDigits_cons]
    ring

theorem bval_mantissaDigits (n : ℕ) : bval (mantissaDigits n) = n := by
  rw [mantissaDigits_eq]
  simp [bval_reverse, Nat.ofDigits_digits]

theorem mantissaDigits_lt (n : ℕ) : ∀ d ∈ mantissaDigits n, d < 10 := by
  intro d hd
  rw [mantissaDigits_eq] at hd
  exact Nat.digits_lt_base (by norm_num) (List.mem_reverse.mp hd)

theorem mantissaDigits_ne_nil {n : ℕ} (hn : n ≠ 0) : mantissaDigits n ≠ [] := by
  rw [mantissaDigits_eq]
  simpa using Nat.digits_ne_nil_iff_ne_zero.mpr hn

/-- A digit list has no trailing zero (vacuously true for `[]`). -/
def lastNonzero (D : List ℕ) : Prop := D.getLast? ≠ some 0

theorem lastNonzero_nil : lastNonzero [] := by simp [lastNonzero]

theorem lastNonzero_tail {d : ℕ} {t : List ℕ} (h : lastNonzero (d :: t)) :
    lastNonzero t := by
  cases t with
  | nil => exact lastNonzero_nil
  | cons e s => simpa [lastNonzero, List.getLast?_cons_cons] using h

theorem bval_pos {D : List ℕ} (hne : D ≠ []) (h : lastNonzero D) : 0 < bval D := by
  induction D with
  | nil => exact absurd rfl hne
  | cons d t ih =>
    cases t with
    | nil =>
      have : d ≠ 0 := by simpa [lastNonzero] using h
      simpa [bval] using Nat.pos_of_ne_zero this
    | cons e s =>
      have hp := ih (by simp) (lastNonzero_tail h)
      simp only [bval] at hp ⊢
      omega

theorem bval_lt {D : List ℕ} (h : ∀ d ∈ D, d < 10) : bval D < 10 ^ D.length := by
  induction D with
  | nil => simp [bval]
  | cons d t ih =>
    have hd : d < 10 := h d (by simp)
    have ht := ih (fun x hx => h x (by simp [hx]))
    simp only [bval, List.length_cons, pow_succ]
    calc d * 10 ^ t.length + bval t < d * 10 ^ t.length + 10 ^ t.length := by omega
      _ = (d + 1) * 10 ^ t.length := by ring
      _ ≤ 10 * 10 ^ t.length := by
          exact Nat.mul_le_mul_right _ (by omega)
      _ = 10 ^ t.length * 10 := by ring

theorem stripZerosAux_spec : ∀ fuel n, n ≤ fuel →
    (stripZerosAux fuel n).1 * 10 ^ (stripZerosAux fuel n).2 = n ∧
      (n ≠ 0 → ¬(10 ∣ (stripZerosAux fuel n).1)) := by
  intro fuel
  induction fuel with
  | zero =>
    intro n hn
    have h0 : n = 0 := Nat.le_zero.mp hn
    subst h0
    exact ⟨by simp [stripZerosAux], fun h => absurd rfl h⟩
  | succ fuel ih =>
    intro n hn
    unfold stripZerosAux
    by_cases h : n ≠ 0 ∧ n % 10 = 0
    · rw [if_pos h]
      have hdivlt : n / 10 < n := Nat.div_lt_self (Nat.pos_of_ne_zero h.1) (by norm_num)
      have hdiv : n / 10 ≤ fuel := by omega
      have hq : n / 10 ≠ 0 := by
        intro h0
        have := Nat.div_mul_cancel (Nat.dvd_of_mod_eq_zero h.2)
        omega
      obtain ⟨hval, hdvd⟩ := ih _ hdiv
      constructor
      · calc (stripZerosAux fuel (n / 10)).1 * 10 ^ ((stripZerosAux fuel (n / 10)).2 + 1)
            = (stripZerosAux fuel (n / 10)).1 * 10 ^ (stripZerosAux fuel (n / 10)).2 * 10 := by
              ring
          _ = n / 10 * 10 := by rw [hval]
          _ = n := Nat.div_mul_cancel (Nat.dvd_of_mod_eq_zero h.2)
      · intro _
        exact hdvd hq
    · rw [if_neg h]
      refine ⟨by simp, ?_⟩
      intro hne hdvd
      obtain ⟨c, rfl⟩ := hdvd
      exact h ⟨hne, Nat.mul_mod_right 10 c⟩

theorem stripZeros_spec (n : ℕ) : (stripZeros n).1 * 10 ^ (stripZeros n).2 = n :=
  (stripZerosAux_spec n n le_rfl).1

theorem stripZeros_not_dvd {n : ℕ} (hn : n ≠ 0) : ¬(10 ∣ (stripZeros n).1) :=
  (stripZerosAux_spec n n le_rfl).2 hn

theorem stripZeros_ne_zero {n : ℕ} (hn : n ≠ 0) : (stripZeros n).1 ≠ 0 := by
  intro h0
  have := stripZeros_spec n
  rw [h0] at this
  simp at this
  exact hn this.symm

/-! ### Lexicographic comparison of mantissa blocks -/

theorem bval_chain {e d : ℕ} {S T : List ℕ} (hed : e < d) (hS : ∀ x ∈ S, x < 10) :
    bval (e :: S) * 10 ^ (T.length + 1) < bval (d :: T) * 10 ^ (S.length + 1) := by
  have hbS : bval S < 10 ^ S.length := bval_lt hS
  have hQ : 0 < 10 ^ T.length := pow_pos (by norm_num) _
  simp only [bval, pow_succ]
  calc (e * 10 ^ S.length + bval S) * (10 ^ T.length * 10)
      < ((e + 1) * 10 ^ S.length) * (10 ^ T.length * 10) := by
        have h1 : e * 10 ^ S.length + bval S < (e + 1) * 10 ^ S.length := by
          have : (e + 1) * 10 ^ S.length = e * 10 ^ S.length + 10 ^ S.length := by ring
          omega
        exact (Nat.mul_lt_mul_right (by positivity)).mpr h1
    _ ≤ (d * 10 ^ S.length) * (10 ^ T.length * 10) := by
        have h2 : (e + 1) * 10 ^ S.length ≤ d * 10 ^ S.length :=
          Nat.mul_le_mul_right _ (by omega)
        exact Nat.mul_le_mul_right _ h2
    _ = (d * 10 ^ T.length) * (10 ^ S.length * 10) := by ring
    _ ≤ (d * 10 ^ T.length + bval T) * (10 ^ S.length * 10) :=
        Nat.mul_le_mul_right _ (by omega)

theorem bval_step_iff (e : ℕ) (S T : List ℕ) :
    bval (e :: S) * 10 ^ (T.length + 1) < bval (e :: T) * 10 ^ (S.length + 1) ↔
      bval S * 10 ^ T.length < bval T * 10 ^ S.length := by
  simp only [bval, pow_succ]
  have lhs_eq : (e * 10 ^ S.length + bval S) * (10 ^ T.length * 10)
      = e * 10 ^ S.length * 10 ^ T.length * 10 + bval S * 10 ^ T.length * 10 := by ring
  have rhs_eq : (e * 10 ^ T.length + bval T) * (10 ^ S.length * 10)
      = e * 10 ^ S.length * 10 ^ T.length * 10 + bval T * 10 ^ S.length * 10 := by ring
  rw [lhs_eq, rhs_eq, Nat.add_lt_add_iff_left]
  exact Nat.mul_lt_mul_right (by norm_num)

/-- Comparing mantissa blocks `digits ++ "!"` lexicographically is the same as
comparing the (zero-padded) mantissa values. -/
theorem mantissaLexLt : ∀ D1 D2 : List ℕ, (∀ d ∈ D1, d < 10) → (∀ d ∈ D2, d < 10) →
    lastNonzero D1 → lastNonzero D2 →
    (lexLt (D1.map digitChar ++ ['!']) (D2.map digitChar ++ ['!']) = true ↔
      bval D1 * 10 ^ D2.length < bval D2 * 10 ^ D1.length) := by
  intro D1
  induction D1 with
  | nil =>
    intro D2 h1 h2 t1 t2
    cases D2 with
    | nil => simp [lexLt, bval]
    | cons d T =>
      have hd : d < 10 := h2 d (by simp)
      have hlex : lexLt (List.map digitChar [] ++ ['!'])
          (List.map digitChar (d :: T) ++ ['!']) = true := by
        simp only [List.map_nil, List.nil_append, List.map_cons, List.cons_append]
        refine lexLt_head _ _ ?_
        have hb : '!'.toNat = 33 := rfl
        rw [hb, digitChar_toNat hd]
        omega
      refine iff_of_true hlex ?_
      simp only [bval, List.length_nil, pow_zero, List.length_cons]
      have := bval_pos (by simp : (d :: T) ≠ []) t2
      simp only [bval] at this
      omega
  | cons e S ih =>
    intro D2 h1 h2 t1 t2
    have he : e < 10 := h1 e (by simp)
    have hS : ∀ x ∈ S, x < 10 := fun x hx => h1 x (by simp [hx])
    have tS := lastNonzero_tail t1
    cases D2 with
    | nil =>
      have hlex : lexLt (List.map digitChar (e :: S) ++ ['!'])
          (List.map digitChar [] ++ ['!']) = false := by
        simp only [List.map_nil, List.nil_append, List.map_cons, List.cons_append]
        refine lexLt_head_false _ _ ?_
        have hb : '!'.toNat = 33 := rfl
        rw [hb, digitChar_toNat he]
        omega
      refine iff_of_false (by rw [hlex]; exact Bool.false_ne_true) ?_
      simp [bval]
    | cons d T =>
      have hd : d < 10 := h2 d (by simp)
      have hT : ∀ x ∈ T, x < 10 := fun x hx => h2 x (by simp [hx])
      have tT := lastNonzero_tail t2
      rcases lt_trichotomy e d with hlt | heq | hgt
      · have hlex : lexLt (List.map digitChar (e :: S) ++ ['!'])
            (List.map digitChar (d :: T) ++ ['!']) = true := by
          simp only [List.map_cons, List.cons_append]
          exact lexLt_head _ _ (by rw [digitChar_toNat he, digitChar_toNat hd]; omega)
        refine iff_of_true hlex ?_
        simp only [List.length_cons]
        exact bval_chain hlt hS
      · subst heq
        simp only [List.map_cons, List.cons_append, lexLt_cons_same, List.length_cons]
        rw [bval_step_iff]
        exact ih T hS hT tS tT
      · have hlex : lexLt (List.map digitChar (e :: S) ++ ['!'])
            (List.map digitChar (d :: T) ++ ['!']) = false := by
          simp only [List.map_cons, List.cons_append]
          exact lexLt_head_false _ _
            (by rw [digitChar_toNat he, digitChar_toNat hd]; omega)
        refine iff_of_false (by rw [hlex]; exact Bool.false_ne_true) ?_
        simp only [List.length_cons, not_lt]
        exact le_of_lt (bval_chain hgt hT)

/-- The mirrored version for the complemented digits used by negative numbers:
lexicographic order of `compDigitChar` blocks inverts the padded value order. -/
theorem mantissaLexComp : ∀ D1 D2 : List ℕ, (∀ d ∈ D1, d < 10) → (∀ d ∈ D2, d < 10) →
    lastNonzero D1 → lastNonzero D2 →
    (lexLt (D1.map compDigitChar ++ ['~']) (D2.map compDigitChar ++ ['~']) = true ↔
      bval D2 * 10 ^ D1.length < bval D1 * 10 ^ D2.length) := by
  intro D1
  induction D1 with
  | nil =>
    intro D2 h1 h2 t1 t2
    cases D2 with
    | nil => simp [lexLt, bval]
    | cons d T =>
      have hd : d < 10 := h2 d (by simp)
      have hlex : lexLt (List.map compDigitChar [] ++ ['~'])
          (List.map compDigitChar (d :: T) ++ ['~']) = false := by
        simp only [List.map_nil, List.nil_append, List.map_cons, List.cons_append]
        refine lexLt_head_false _ _ ?_
        have hb : '~'.toNat = 126 := rfl
        rw [hb, compDigitChar_toNat hd]
        omega
      refine iff_of_false (by rw [hlex]; exact Bool.false_ne_true) ?_
      simp [bval]
  | cons e S ih =>
    intro D2 h1 h2 t1 t2
    have he : e < 10 := h1 e (by simp)
    have hS : ∀ x ∈ S, x < 10 := fun x hx => h1 x (by simp [hx])
    have tS := lastNonzero_tail t1
    cases D2 with
    | nil =>
      have hlex : lexLt (List.map compDigitChar (e :: S) ++ ['~'])
          (List.map compDigitChar [] ++ ['~']) = true := by
        simp only [List.map_nil, List.nil_append, List.map_cons, List.cons_append]
        refine lexLt_head _ _ ?_
        have hb : '~'.toNat = 126 := rfl
        rw [hb, compDigitChar_toNat he]
        omega
      refine iff_of_true hlex ?_
      simp only [bval, List.length_nil, pow_zero, List.length_cons]
      have := bval_pos (by simp : (e :: S) ≠ []) t1
      simp only [bval] at this
      omega
    | cons d T =>
      have hd : d < 10 := h2 d (by simp)
      have hT : ∀ x ∈ T, x < 10 := fun x hx => h2 x (by simp [hx])
      have tT := lastNonzero_tail t2
      rcases lt_trichotomy e d with hlt | heq | hgt
      · have hlex : lexLt (List.map compDigitChar (e :: S) ++ ['~'])
            (List.map compDigitChar (d :: T) ++ ['~']) = false := by
          simp only [List.map_cons, List.cons_append]
          exact lexLt_head_false _ _
            (by rw [compDigitChar_toNat he, compDigitChar_toNat hd]; omega)
        refine iff_of_false (by rw [hlex]; exact Bool.false_ne_true) ?_
        simp only [List.length_cons, not_lt]
        exact le_of_lt (bval_chain hlt hS)
      · subst heq
        simp only [List.map_cons, List.cons_append, lexLt_cons_same, List.length_cons]
        rw [bval_step_iff]
        exact ih T hS hT tS tT
      · have hlex : lexLt (List.map compDigitChar (e :: S) ++ ['~'])
            (List.map compDigitChar (d :: T) ++ ['~']) = true := by
          simp only [List.map_cons, List.cons_append]
          exact lexLt_head _ _
            (by rw [compDigitChar_toNat he, compDigitChar_toNat hd]; omega)
        refine iff_of_true hlex ?_
        simp only [List.length_cons]
        exact bval_chain hgt hT

/-! ### Normalisation facts for `charwiseEncode` -/

/-- Normalised mantissa of a decimal. -/
def decM (d : Dec) : ℕ := (stripZeros d.m.natAbs).1

/-- Number of factors of ten stripped from the mantissa. -/
def decT (d : Dec) : ℕ := (stripZeros d.m.natAbs).2

/-- Big-endian digit list of the normalised mantissa. -/
def decD (d : Dec) : List ℕ := mantissaDigits (decM d)

/-- Normalised decimal exponent (position of the leading digit). -/
def decK (d : Dec) : Int := ((decD d).length : Int) - 1 + d.e + (decT d : Int)

/-- Absolute value of a decimal, in normalised form. -/
def posVal (d : Dec) : ℚ :=
  (decM d : ℚ) * (10 : ℚ) ^ (decK d - ((decD d).length : Int) + 1)

theorem charwiseEncode_pos_eq {d : Dec} (h : 0 < d.m) :
    charwiseEncode d =
      ⟨'T' :: (expChars (decK d) ++ ((decD d).map digitChar ++ ['!']))⟩ := by
  have hm : d.m ≠ 0 := ne_of_gt h
  simp only [charwiseEncode, hm, if_false, h, if_true, decD, decM, decK, decT]

theorem charwiseEncode_neg_eq {d : Dec} (h : d.m < 0) :
    charwiseEncode d =
      ⟨'D' :: (negExpChars (decK d) ++ ((decD d).map compDigitChar ++ ['~']))⟩ := by
  have hm : d.m ≠ 0 := ne_of_lt h
  have h2 : ¬(0 < d.m) := not_lt.mpr (le_of_lt h)
  simp only [charwiseEncode, hm, if_false, h2, decD, decM, decK, decT]

theorem decM_ne_zero {d : Dec} (h : d.m ≠ 0) : decM d ≠ 0 :=
  stripZeros_ne_zero (Int.natAbs_ne_zero.mpr h)

theorem decD_ne_nil {d : Dec} (h : d.m ≠ 0) : decD d ≠ [] :=
  mantissaDigits_ne_nil (decM_ne_zero h)

theorem decD_lt (d : Dec) : ∀ x ∈ decD d, x < 10 := mantissaDigits_lt _

theorem decD_lastNonzero {d : Dec} (h : d.m ≠ 0) : lastNonzero (decD d) := by
  have hM := decM_ne_zero h
  have hnd := stripZeros_not_dvd (Int.natAbs_ne_zero.mpr h)
  unfold decD lastNonzero
  rw [mantissaDigits_eq, List.getLast?_reverse]
  rw [Nat.digits_def' (by norm_num : (1:ℕ) < 10) (Nat.pos_of_ne_zero hM)]
  simp only [List.head?_cons, ne_eq, Option.some.injEq]
  intro hmod
  exact hnd (Nat.dvd_of_mod_eq_zero hmod)

theorem decD_head {d : Dec} (h : d.m ≠ 0) :
    ∃ d0 rest, decD d = d0 :: rest ∧ 1 ≤ d0 ∧ d0 ≤ 9 := by
  obtain ⟨d0, rest, heq⟩ := List.exists_cons_of_ne_nil (decD_ne_nil h)
  have hlt : d0 < 10 := decD_lt d d0 (by rw [heq]; simp)
  have hne0 : d0 ≠ 0 := by
    have h1 : (Nat.digits 10 (decM d)).getLast? = some d0 := by
      rw [← List.head?_reverse]
      have hrw : (Nat.digits 10 (decM d)).reverse = decD d := by
        rw [decD, mantissaDigits_eq]
      rw [hrw, heq]
      rfl
    have hM := decM_ne_zero h
    have hne : Nat.digits 10 (decM d) ≠ [] := Nat.digits_ne_nil_iff_ne_zero.mpr hM
    have h2 := Nat.getLast_digit_ne_zero 10 hM
    rw [List.getLast?_eq_getLast _ hne, Option.some.injEq] at h1
    rw [← h1]
    exact h2
  exact ⟨d0, rest, heq, by omega, by omega⟩

theorem decM_bounds {d : Dec} (h : d.m ≠ 0) :
    10 ^ ((decD d).length - 1) ≤ decM d ∧ decM d < 10 ^ (decD d).length := by
  have hM := decM_ne_zero h
  have hlen1 : 1 ≤ (decD d).length :=
    List.length_pos.mpr (decD_ne_nil h)
  have hlen_eq : (Nat.digits 10 (decM d)).length = (decD d).length := by
    rw [decD, mantissaDigits_eq]
    simp
  constructor
  · have h10 := Nat.base_pow_length_digits_le 10 (decM d) (by norm_num) hM
    rw [hlen_eq] at h10
    have hsplit : (10:ℕ) ^ (decD d).length = 10 * 10 ^ ((decD d).length - 1) := by
      rw [← pow_succ']
      congr 1
      omega
    omega
  · have := @Nat.lt_base_pow_length_digits 10 (decM d) (by norm_num)
    rw [hlen_eq] at this
    exact this

theorem toRat_eq_posVal {d : Dec} (h : 0 < d.m) : d.toRat = posVal d := by
  have hspec := stripZeros_spec d.m.natAbs
  have hm : (d.m : ℚ) = (decM d : ℚ) * (10 : ℚ) ^ (decT d : ℕ) := by
    have hcast : ((decM d * 10 ^ decT d : ℕ) : ℤ) = d.m := by
      rw [show (decM d * 10 ^ decT d : ℕ) = d.m.natAbs from hspec]
      exact Int.natAbs_of_nonneg (le_of_lt h)
    have := congrArg (fun z : ℤ => (z : ℚ)) hcast
    push_cast at this
    exact this.symm
  have hexp : decK d - ((decD d).length : Int) + 1 = d.e + (decT d : Int) := by
    unfold decK
    ring
  unfold Dec.toRat posVal
  rw [hm, hexp, zpow_add₀ (by norm_num : (10:ℚ) ≠ 0), zpow_natCast]
  ring

theorem toRat_eq_neg_posVal {d : Dec} (h : d.m < 0) : d.toRat = -posVal d := by
  have hspec := stripZeros_spec d.m.natAbs
  have hm : (d.m : ℚ) = -((decM d : ℚ) * (10 : ℚ) ^ (decT d : ℕ)) := by
    have hcast : ((decM d * 10 ^ decT d : ℕ) : ℤ) = -d.m := by
      rw [show (decM d * 10 ^ decT d : ℕ) = d.m.natAbs from hspec]
      omega
    have := congrArg (fun z : ℤ => (z : ℚ)) hcast
    push_cast at this
    rw [this]
    ring
  have hexp : decK d - ((decD d).length : Int) + 1 = d.e + (decT d : Int) := by
    unfold decK
    ring
  unfold Dec.toRat posVal
  rw [hm, hexp, zpow_add₀ (by norm_num : (10:ℚ) ≠ 0), zpow_natCast]
  ring

theorem posVal_bounds {d : Dec} (h : d.m ≠ 0) :
    (10:ℚ) ^ (decK d) ≤ posVal d ∧ posVal d < (10:ℚ) ^ (decK d + 1) := by
  obtain ⟨hlb, hub⟩ := decM_bounds h
  have hlen1 : 1 ≤ (decD d).length := List.length_pos.mpr (decD_ne_nil h)
  have hzpos : (0:ℚ) < (10:ℚ) ^ (decK d - ((decD d).length : Int) + 1) :=
    zpow_pos (by norm_num) _
  constructor
  · have e1 : (10:ℚ) ^ (decK d) =
        (10:ℚ) ^ ((((decD d).length - 1 : ℕ)) : ℤ) *
          (10:ℚ) ^ (decK d - ((decD d).length : Int) + 1) := by
      rw [← zpow_add₀ (by norm_num : (10:ℚ) ≠ 0)]
      congr 1
      omega
    rw [e1]
    unfold posVal
    apply mul_le_mul_of_nonneg_right ?_ (le_of_lt hzpos)
    rw [zpow_natCast]
    exact_mod_cast hlb
  · have e2 : (10:ℚ) ^ (decK d + 1) =
        (10:ℚ) ^ ((((decD d).length : ℕ)) : ℤ) *
          (10:ℚ) ^ (decK d - ((decD d).length : Int) + 1) := by
      rw [← zpow_add₀ (by norm_num : (10:ℚ) ≠ 0)]
      congr 1
      omega
    rw [e2]
    unfold posVal
    apply mul_lt_mul_of_pos_right ?_ hzpos
    rw [zpow_natCast]
    exact_mod_cast hub

theorem k_le_of_posVal_lt {a b : Dec} (ha : a.m ≠ 0) (hb : b.m ≠ 0)
    (h : posVal a < posVal b) : decK a ≤ decK b := by
  by_contra hcon
  push_neg at hcon
  have h1 := (posVal_bounds hb).2
  have h2 := (posVal_bounds ha).1
  have h3 : (10:ℚ) ^ (decK b + 1) ≤ (10:ℚ) ^ (decK a) :=
    zpow_le_zpow_right₀ (by norm_num) (by omega)
  linarith

theorem mantissa_lt_of_posVal_lt {a b : Dec} (_ha : a.m ≠ 0) (_hb : b.m ≠ 0)
    (hk : decK a = decK b) (h : posVal a < posVal b) :
    bval (decD a) * 10 ^ (decD b).length < bval (decD b) * 10 ^ (decD a).length := by
  have hbva : bval (decD a) = decM a := bval_mantissaDigits _
  have hbvb : bval (decD b) = decM b := bval_mantissaDigits _
  have hC : (0:ℚ) < (10:ℚ) ^ (decK a - ((decD a).length : Int) - ((decD b).length : Int) + 1) :=
    zpow_pos (by norm_num) _
  have key : (decM a : ℚ) * (10:ℚ) ^ (((decD b).length : ℕ) : ℤ) <
      (decM b : ℚ) * (10:ℚ) ^ (((decD a).length : ℕ) : ℤ) := by
    have e1 : (10:ℚ) ^ (decK a - ((decD a).length : Int) + 1) =
        (10:ℚ) ^ (((decD b).length : ℕ) : ℤ) *
          (10:ℚ) ^ (decK a - ((decD a).length : Int) - ((decD b).length : Int) + 1) := by
      rw [← zpow_add₀ (by norm_num : (10:ℚ) ≠ 0)]
      congr 1
      omega
    have e2 : (10:ℚ) ^ (decK b - ((decD b).length : Int) + 1) =
        (10:ℚ) ^ (((decD a).length : ℕ) : ℤ) *
          (10:ℚ) ^ (decK a - ((decD a).length : Int) - ((decD b).length : Int) + 1) := by
      rw [← zpow_add₀ (by norm_num : (10:ℚ) ≠ 0)]
      congr 1
      omega
    unfold posVal at h
    rw [e1, e2] at h
    have hl : (decM a:ℚ) * ((10:ℚ) ^ (((decD b).length : ℕ) : ℤ) *
        (10:ℚ) ^ (decK a - ((decD a).length : Int) - ((decD b).length : Int) + 1)) =
        ((decM a:ℚ) * (10:ℚ) ^ (((decD b).length : ℕ) : ℤ)) *
          (10:ℚ) ^ (decK a - ((decD a).length : Int) - ((decD b).length : Int) + 1) := by
      ring
    have hr : (decM b:ℚ) * ((10:ℚ) ^ (((decD a).length : ℕ) : ℤ) *
        (10:ℚ) ^ (decK a - ((decD a).length : Int) - ((decD b).length : Int) + 1)) =
        ((decM b:ℚ) * (10:ℚ) ^ (((decD a).length : ℕ) : ℤ)) *
          (10:ℚ) ^ (decK a - ((decD a).length : Int) - ((decD b).length : Int) + 1) := by
      ring
    rw [hl, hr] at h
    exact (mul_lt_mul_right hC).mp h
  rw [hbva, hbvb]
  have : ((decM a * 10 ^ (decD b).length : ℕ) : ℚ) <
      ((decM b * 10 ^ (decD a).length : ℕ) : ℚ) := by
    push_cast
    rw [← zpow_natCast (10:ℚ) (decD b).length, ← zpow_natCast (10:ℚ) (decD a).length]
    exact key
  exact_mod_cast this

/-! ### Exponent blocks dominate the comparison -/

theorem expChars_lt {k1 k2 : Int} (h : k1 < k2) (r1 r2 : List Char)
    (hr1 : r1 ≠ []) (hr2 : r2 ≠ [])
    (h1 : ∀ c ∈ r1.head?, c.toNat ≤ 57)
    (h2 : ∀ c ∈ r2.head?, 49 ≤ c.toNat ∧ c.toNat ≤ 57) :
    lexLt (expChars k1 ++ r1) (expChars k2 ++ r2) = true := by
  unfold expChars
  by_cases hk1 : 0 ≤ k1
  · have hk2 : 0 ≤ k2 := le_trans hk1 (le_of_lt h)
    rw [if_pos hk1, if_pos hk2]
    refine lexLt_replicate_left 'P' r1 r2 (by omega) hr1 ?_
    intro c hc
    have hP : 'P'.toNat = 80 := rfl
    have := h1 c hc
    omega
  · by_cases hk2 : 0 ≤ k2
    · rw [if_neg hk1, if_pos hk2]
      have hrep : List.replicate (k2.toNat + 1) 'P' = 'P' :: List.replicate k2.toNat 'P' := rfl
      rw [hrep]
      simp only [List.cons_append]
      exact lexLt_head _ _ (by decide)
    · rw [if_neg hk1, if_neg hk2]
      simp only [List.cons_append, lexLt_cons_same]
      refine lexLt_replicate_right '0' r1 r2 (by omega) hr2 ?_
      intro c hc
      have h0 : '0'.toNat = 48 := rfl
      have := h2 c hc
      omega

theorem negExpChars_lt {k1 k2 : Int} (h : k2 < k1) (r1 r2 : List Char)
    (hr1 : r1 ≠ []) (hr2 : r2 ≠ [])
    (h1 : ∀ c ∈ r1.head?, 106 ≤ c.toNat ∧ c.toNat ≤ 115)
    (h2 : ∀ c ∈ r2.head?, 106 ≤ c.toNat ∧ c.toNat ≤ 115) :
    lexLt (negExpChars k1 ++ r1) (negExpChars k2 ++ r2) = true := by
  unfold negExpChars
  by_cases hk2 : 0 ≤ k2
  · have hk1 : 0 ≤ k1 := le_trans hk2 (le_of_lt h)
    rw [if_pos hk1, if_pos hk2]
    refine lexLt_replicate_right 'A' r1 r2 (by omega) hr2 ?_
    intro c hc
    have hA : 'A'.toNat = 65 := rfl
    have := h2 c hc
    omega
  · by_cases hk1 : 0 ≤ k1
    · rw [if_pos hk1, if_neg hk2]
      have hrep : List.replicate (k1.toNat + 1) 'A' = 'A' :: List.replicate k1.toNat 'A' := rfl
      rw [hrep]
      simp only [List.cons_append]
      exact lexLt_head _ _ (by decide)
    · rw [if_neg hk1, if_neg hk2]
      simp only [List.cons_append, lexLt_cons_same]
      refine lexLt_replicate_left '~' r1 r2 (by omega) hr1 ?_
      intro c hc
      have ht : '~'.toNat = 126 := rfl
      have := h1 c hc
      omega

/-! ### The encoding is strictly monotone -/

theorem toRat_pos_of_m_pos {d : Dec} (h : 0 < d.m) : 0 < d.toRat := by
  unfold Dec.toRat
  have h1 : (0:ℚ) < (d.m : ℚ) := by exact_mod_cast h
  exact mul_pos h1 (zpow_pos (by norm_num) _)

theorem toRat_neg_of_m_neg {d : Dec} (h : d.m < 0) : d.toRat < 0 := by
  unfold Dec.toRat
  have h1 : (d.m : ℚ) < 0 := by exact_mod_cast h
  exact mul_neg_of_neg_of_pos h1 (zpow_pos (by norm_num) _)

theorem toRat_zero_of_m_zero {d : Dec} (h : d.m = 0) : d.toRat = 0 := by
  unfold Dec.toRat
  rw [h]
  simp

theorem digitBlock_head_le (D : List ℕ) (hD : ∀ x ∈ D, x < 10) :
    ∀ c ∈ (D.map digitChar ++ ['!']).head?, c.toNat ≤ 57 := by
  intro c hc
  cases D with
  | nil =>
    simp only [List.map_nil, List.nil_append, List.head?_cons, Option.mem_def,
      Option.some.injEq] at hc
    subst hc
    decide
  | cons d t =>
    simp only [List.map_cons, List.cons_append, List.head?_cons, Option.mem_def,
      Option.some.injEq] at hc
    subst hc
    rw [digitChar_toNat (hD d (by simp))]
    have := hD d (by simp)
    omega

theorem digitBlock_head_bounds {d : Dec} (h : d.m ≠ 0) :
    ∀ c ∈ ((decD d).map digitChar ++ ['!']).head?, 49 ≤ c.toNat ∧ c.toNat ≤ 57 := by
  obtain ⟨d0, rest, heq, h1, h9⟩ := decD_head h
  intro c hc
  rw [heq] at hc
  simp only [List.map_cons, List.cons_append, List.head?_cons, Option.mem_def,
    Option.some.injEq] at hc
  subst hc
  rw [digitChar_toNat (by omega)]
  omega

theorem compBlock_head_bounds {d : Dec} (h : d.m ≠ 0) :
    ∀ c ∈ ((decD d).map compDigitChar ++ ['~']).head?, 106 ≤ c.toNat ∧ c.toNat ≤ 115 := by
  obtain ⟨d0, rest, heq, h1, h9⟩ := decD_head h
  intro c hc
  rw [heq] at hc
  simp only [List.map_cons, List.cons_append, List.head?_cons, Option.mem_def,
    Option.some.injEq] at hc
  subst hc
  rw [compDigitChar_toNat (by omega)]
  omega

theorem encode_lt_pos {a b : Dec} (ha : 0 < a.m) (hb : 0 < b.m)
    (h : a.toRat < b.toRat) :
    strLt (charwiseEncode a) (charwiseEncode b) = true := by
  have hane : a.m ≠ 0 := ne_of_gt ha
  have hbne : b.m ≠ 0 := ne_of_gt hb
  have hv : posVal a < posVal b := by
    rw [← toRat_eq_posVal ha, ← toRat_eq_posVal hb]
    exact h
  rw [charwiseEncode_pos_eq ha, charwiseEncode_pos_eq hb]
  show lexLt ('T' :: (expChars (decK a) ++ ((decD a).map digitChar ++ ['!'])))
      ('T' :: (expChars (decK b) ++ ((decD b).map digitChar ++ ['!']))) = true
  rw [lexLt_cons_same]
  rcases lt_or_eq_of_le (k_le_of_posVal_lt hane hbne hv) with hk | hk
  · exact expChars_lt hk _ _ (by simp) (by simp)
      (digitBlock_head_le _ (decD_lt a)) (digitBlock_head_bounds hbne)
  · rw [hk, lexLt_append_same]
    exact (mantissaLexLt (decD a) (decD b) (decD_lt a) (decD_lt b)
      (decD_lastNonzero hane) (decD_lastNonzero hbne)).mpr
      (mantissa_lt_of_posVal_lt hane hbne hk hv)

theorem encode_lt_neg {a b : Dec} (ha : a.m < 0) (hb : b.m < 0)
    (h : a.toRat < b.toRat) :
    strLt (charwiseEncode a) (charwiseEncode b) = true := by
  have hane : a.m ≠ 0 := ne_of_lt ha
  have hbne : b.m ≠ 0 := ne_of_lt hb
  have hv : posVal b < posVal a := by
    have h1 := toRat_eq_neg_posVal ha
    have h2 := toRat_eq_neg_posVal hb
    rw [h1, h2] at h
    linarith
  rw [charwiseEncode_neg_eq ha, charwiseEncode_neg_eq hb]
  show lexLt ('D' :: (negExpChars (decK a) ++ ((decD a).map compDigitChar ++ ['~'])))
      ('D' :: (negExpChars (decK b) ++ ((decD b).map compDigitChar ++ ['~']))) = true
  rw [lexLt_cons_same]
  rcases lt_or_eq_of_le (k_le_of_posVal_lt hbne hane hv) with hk | hk
  · exact negExpChars_lt hk _ _ (by simp) (by simp)
      (compBlock_head_bounds hane) (compBlock_head_bounds hbne)
  · rw [← hk, lexLt_append_same]
    exact (mantissaLexComp (decD a) (decD b) (decD_lt a) (decD_lt b)
      (decD_lastNonzero hane) (decD_lastNonzero hbne)).mpr
      (mantissa_lt_of_posVal_lt hbne hane hk hv)

/-- The spec-modelled numeric key encoding is strictly monotone with respect to
lexicographic string comparison. -/
theorem charwiseEncode_strictMono {a b : Dec} (h : a.toRat < b.toRat) :
    strLt (charwiseEncode a) (charwiseEncode b) = true := by
  rcases lt_trichotomy a.m 0 with haneg | hazero | hapos
  · rcases lt_trichotomy b.m 0 with hbneg | hbzero | hbpos
    · exact encode_lt_neg haneg hbneg h
    · rw [charwiseEncode_neg_eq haneg]
      rw [show charwiseEncode b = "F" from by simp [charwiseEncode, hbzero]]
      exact lexLt_head _ _ (by decide)
    · rw [charwiseEncode_neg_eq haneg, charwiseEncode_pos_eq hbpos]
      exact lexLt_head _ _ (by decide)
  · rcases lt_trichotomy b.m 0 with hbneg | hbzero | hbpos
    · exact absurd h (not_lt.mpr (le_of_lt (lt_of_lt_of_le (toRat_neg_of_m_neg hbneg)
        (le_of_eq (toRat_zero_of_m_zero hazero).symm))))
    · rw [toRat_zero_of_m_zero hazero, toRat_zero_of_m_zero hbzero] at h
      exact absurd h (lt_irrefl 0)
    · rw [show charwiseEncode a = "F" from by simp [charwiseEncode, hazero]]
      rw [charwiseEncode_pos_eq hbpos]
      exact lexLt_head _ _ (by decide)
  · rcases lt_trichotomy b.m 0 with hbneg | hbzero | hbpos
    · exact absurd h (not_lt.mpr (le_of_lt (lt_trans (toRat_neg_of_m_neg hbneg)
        (toRat_pos_of_m_pos hapos))))
    · exact absurd h (not_lt.mpr (le_of_lt (lt_of_le_of_lt
        (le_of_eq (toRat_zero_of_m_zero hbzero)) (toRat_pos_of_m_pos hapos))))
    · exact encode_lt_pos hapos hbpos h

/-! ## Entity values

`Value` models the JSON-like values entities are built from (plus `Date` and
`undefined`, which JavaScript allows in memory but JSON cannot represent). -/

/-- Modelled from the spec: `hashString` (src/lib/utils.ts) is a SHA-256 hex
digest; the spec treats hash collisions as negligible, so the model uses an
injective tagging function in its place. -/
def hashString (input : String) : String := "#" ++ input

/-- Zero-pad the decimal rendering of a natural number to width `w`. -/
def padNat (w : ℕ) (n : ℕ) : String :=
  let s := toString n
  if s.length < w then String.mk (List.replicate (w - s.length) '0') ++ s else s

/-- Gregorian civil date `(year, month, day)` from days since the Unix epoch. -/
def civilFromDays (z0 : Int) : Int × Int × Int :=
  let z := z0 + 719468
  let era := z.fdiv 146097
  let doe := z - era * 146097
  let yoe := (doe - doe / 1460 + doe / 36524 - doe / 146096) / 365
  let y := yoe + era * 400
  let doy := doe - (365 * yoe + yoe / 4 - yoe / 100)
  let mp := (5 * doy + 2) / 153
  let dday := doy - (153 * mp + 2) / 5 + 1
  let mo := mp + (if mp < 10 then 3 else -9)
  (y + (if mo ≤ 2 then 1 else 0), mo, dday)

/-- Modelled from the spec: a `Date` is persisted through JSON as its ISO-8601
UTC string (`Date.prototype.toISOString` on the millisecond timestamp). -/
def isoString (t : Int) : String :=
  let days := t.fdiv 86400000
  let msOfDay := (t - days * 86400000).toNat
  let c := civilFromDays days
  let y := c.1
  let ys := if 0 ≤ y ∧ y ≤ 9999 then padNat 4 y.toNat
    else if y < 0 then "-" ++ padNat 6 (-y).toNat
    else "+" ++ padNat 6 y.toNat
  ys ++ "-" ++ padNat 2 c.2.1.toNat ++ "-" ++ padNat 2 c.2.2.toNat ++ "T" ++
    padNat 2 (msOfDay / 3600000) ++ ":" ++ padNat 2 (msOfDay % 3600000 / 60000) ++ ":" ++
    padNat 2 (msOfDay % 60000 / 1000) ++ "." ++ padNat 3 (msOfDay % 1000) ++ "Z"

/-- JSON-like entity field values. -/
inductive Value where
  | vStr (s : String)
  | vNum (n : Dec)
  | vBool (b : Bool)
  | vDate (t : Int)
  | vNull
  | vUndefined
  | vObj (fields : List (String × Value))
  | vArr (elems : List Value)

/-- An entity body: the top-level named fields of a document. -/
abbrev Obj := List (String × Value)

/-- Minimal JSON string escaping (backslash and double quote). -/
def escapeJson (s : String) : String :=
  String.mk (s.data.foldr (fun c acc =>
    if c = '"' ∨ c = '\\' then '\\' :: c :: acc else c :: acc) [])

/-- Rendering of a decimal number inside JSON text. The real JavaScript
rendering differs textually; only injectivity and the leading character are
relevant to the claims (the rendered text is fed into the content hash). -/
def decRender (n : Dec) : String :=
  toString n.m ++ "e" ++ toString n.e

/-- Whether a value is `undefined` (dropped by JSON object serialisation). -/
def isUndef : Value → Bool
  | .vUndefined => true
  | _ => false

mutual

/-- Modelled from the spec: `JSON.stringify` on entity values. `Date` renders
as its quoted ISO string, `undefined` object fields are dropped, `undefined`
array elements become `null`. -/
def jsonStringify : Value → String
  | .vStr s => "\"" ++ escapeJson s ++ "\""
  | .vNum n => decRender n
  | .vBool b => if b then "true" else "false"
  | .vDate t => "\"" ++ isoString t ++ "\""
  | .vNull => "null"
  | .vUndefined => "undefined"
  | .vObj fields => "\x7b" ++ String.intercalate "," (jsonFieldList fields) ++ "\x7d"
  | .vArr elems => "[" ++ String.intercalate "," (jsonElemList elems) ++ "]"

/-- Rendered `"key":value` pieces of an object, `undefined` fields dropped. -/
def jsonFieldList : List (String × Value) → List String
  | [] => []
  | (k, v) :: rest =>
    if isUndef v then jsonFieldList rest
    else ("\"" ++ escapeJson k ++ "\":" ++ jsonStringify v) :: jsonFieldList rest

/-- Rendered array elements, `undefined` becoming `null`. -/
def jsonElemList : List Value → List String
  | [] => []
  | v :: rest =>
    (if isUndef v then "null" else jsonStringify v) :: jsonElemList rest

end

mutual

/-- Modelled from the spec: the persistence round-trip
`JSON.parse (JSON.stringify v)` on a value. `Date` comes back as its ISO
string; `undefined` is unrepresentable (`none`). -/
def roundtripVal : Value → Option Value
  | .vStr s => some (.vStr s)
  | .vNum n => some (.vNum n)
  | .vBool b => some (.vBool b)
  | .vDate t => some (.vStr (isoString t))
  | .vNull => some .vNull
  | .vUndefined => none
  | .vObj fields => some (.vObj (roundtripFields fields))
  | .vArr elems => some (.vArr (roundtripElems elems))

/-- Round-trip of object fields: `undefined`-valued fields are dropped. -/
def roundtripFields : List (String × Value) → List (String × Value)
  | [] => []
  | (k, v) :: rest =>
    match roundtripVal v with
    | none => roundtripFields rest
    | some w => (k, w) :: roundtripFields rest

/-- Round-trip of array elements: `undefined` elements become `null`. -/
def roundtripElems : List Value → List Value
  | [] => []
  | v :: rest => (roundtripVal v).getD .vNull :: roundtripElems rest

end

/-- The persistence round-trip on an entity body. -/
def roundtripObj (o : Obj) : Obj := roundtripFields o

/-- A value that survives the JSON persistence round-trip unchanged. -/
def JsonStable (v : Value) : Prop := roundtripVal v = some v

/-- An entity body that survives the JSON persistence round-trip unchanged. -/
def JsonStableObj (o : Obj) : Prop := roundtripObj o = o

/-! ## Key encoding `serializeKeyByValue` and field access -/

/-- Model of JavaScript `String.prototype.split` at the character-list level:
empty segments are preserved and splitting the empty list yields one empty
segment. -/
def splitChar (sep : Char) : List Char → List (List Char)
  | [] => [[]]
  | a :: rest =>
    if a = sep then [] :: splitChar sep rest
    else
      match splitChar sep rest with
      | [] => [[a]]
      | h :: t => (a :: h) :: t

/-- Model of JavaScript `k.split(';')` as used by `JsonDBIndex.query`. -/
def splitSemi (s : String) : List String :=
  (splitChar ';' s.data).map String.mk

/-- Model of JavaScript `Array.prototype.join(';')`: the empty array joins to
the empty string. -/
def joinSemi : List String → String
  | [] => ""
  | [s] => s
  | s :: rest => s ++ ";" ++ joinSemi rest

mutual

/-- Faithful model of `serializeKeyByValue` (src/lib/components/JsonDBIndex.ts,
lines 292-318), in the source's own check order: arrays join their element
encodings with `';'`; `undefined` and `null` map to distinct sentinel hashes;
dates encode their timestamp; strings encode as themselves; numbers use the
order-preserving encoding; booleans are `"1"`/`"0"`; remaining objects are
hashed over their JSON text. -/
def serializeKeyByValue : Value → String
  | .vArr elems => joinSemi (serializeKeyList elems)
  | .vUndefined => hashString "undefined"
  | .vDate t => charwiseEncode ⟨t, 0⟩
  | .vStr s => s
  | .vNum n => charwiseEncode n
  | .vBool b => if b then "1" else "0"
  | .vNull => hashString "null"
  | .vObj fields => hashString (jsonStringify (.vObj fields))

/-- The element encodings of an array (`value.map(serializeKeyByValue)`). -/
def serializeKeyList : List Value → List String
  | [] => []
  | v :: rest => serializeKeyByValue v :: serializeKeyList rest

end

theorem serializeKeyList_eq_map (l : List Value) :
    serializeKeyList l = l.map serializeKeyByValue := by
  induction l with
  | nil => rfl
  | cons v rest ih => simp [serializeKeyList, ih]

/-- Field lookup on a value: the model of JavaScript property access used by
the dot-path traversal (non-objects and missing names give `undefined`). -/
def getField : Value → String → Value
  | .vObj fields, name =>
    match fields.find? (fun p => p.1 == name) with
    | some p => p.2
    | none => .vUndefined
  | _, _ => .vUndefined

/-- Modelled from the spec: `getByExpression` (external @david.uhlir/expression
package): "dot-separated traversal into an entity; missing intermediate
segments resolve to undefined". The path is split on `'.'` with the same
split model used for `';'`. -/
def getByExpression (v : Value) (path : String) : Value :=
  ((splitChar '.' path.data).map String.mk).foldl getField v

/-! ## Association-list primitives (JavaScript object maps) -/

/-- Lookup in an insertion-ordered string-keyed map. -/
def lookupA {α : Type} (l : List (String × α)) (k : String) : Option α :=
  (l.find? (fun p => p.1 == k)).map (fun p => p.2)

/-- `m[k] = v`: replace the value at an existing key, else append the pair. -/
def setA {α : Type} (l : List (String × α)) (k : String) (v : α) :
    List (String × α) :=
  if (l.find? (fun p => p.1 == k)).isSome then
    l.map (fun p => if p.1 == k then (p.1, v) else p)
  else l ++ [(k, v)]

/-- `delete m[k]`. -/
def eraseA {α : Type} (l : List (String × α)) (k : String) : List (String × α) :=
  l.filter (fun p => !(p.1 == k))

/-- JavaScript object spread `{...a, ...b}`: keys of `a` keep their position
(value overridden by `b` when present), new keys of `b` follow in order. -/
def spread (a b : Obj) : Obj :=
  a.map (fun p => match lookupA b p.1 with | some v => (p.1, v) | none => p) ++
    b.filter (fun q => (lookupA a q.1).isNone)

/-! ## The secondary index engine (JsonDBIndex) -/

/-- Persisted state of one secondary index: the indexed field path, the
forward map (encoded value → ordered id list) and the backward map
(id → encoded value). -/
structure IndexState where
  keyPath : String
  forward : List (String × List String)
  backward : List (String × String)

/-- The `$id` property of an entity body. -/
def entityId (o : Obj) : String :=
  match lookupA o "$id" with
  | some (.vStr s) => s
  | _ => ""

/-- Faithful model of `JsonDBIndex[friendMethodsSymbolAddItem]`
(src/lib/components/JsonDBIndex.ts, lines 187-199): encode the value at the
index's field path, append the item's id to that bucket unless already
present, and point the backward map at the bucket. -/
def addItem (ix : IndexState) (item : Obj) : IndexState :=
  let k := serializeKeyByValue (getByExpression (.vObj item) ix.keyPath)
  let ids := (lookupA ix.forward k).getD []
  if entityId item ∈ ids then ix
  else
    { ix with
      forward := setA ix.forward k (ids ++ [entityId item]),
      backward := setA ix.backward (entityId item) k }

/-- Faithful model of `JsonDBIndex[friendMethodsSymbolRemoveItem]`
(lines 201-221): a missing backward entry (`!k && k !== ''`) is a no-op;
otherwise the id is spliced out of its bucket (no-op again if absent there),
the bucket is deleted when it empties, and the backward entry is removed. -/
def removeItem (ix : IndexState) (id : String) : IndexState :=
  match lookupA ix.backward id with
  | none => ix
  | some k =>
    let ids := (lookupA ix.forward k).getD []
    if id ∈ ids then
      { keyPath := ix.keyPath,
        forward :=
          if (ids.erase id).isEmpty then eraseA ix.forward k
          else setA ix.forward k (ids.erase id),
        backward := eraseA ix.backward id }
    else ix

/-! ## The repository (JsonDBRepository) -/

/-- State of an open repository: the persisted entity documents (id → parsed
JSON body, as stored on disk) and the states of the defined indexes. -/
structure RepoState where
  store : List (String × Obj)
  indexes : List IndexState

/-- Model of `JsonDBRepository.getOneRaw` (lines 151-161): the parsed stored
document, or `none` when no entity file exists (not an error). -/
def getOneRaw (st : RepoState) (id : String) : Option Obj :=
  lookupA st.store id

/-- Faithful model of `JsonDBRepository.getRaw` (lines 163-176): resolve the
ids in order, keeping each document that exists and skipping the rest. -/
def getRaw (st : RepoState) : List String → List Obj
  | [] => []
  | id :: rest =>
    match getOneRaw st id with
    | some data => data :: getRaw st rest
    | none => getRaw st rest

/-- Faithful model of `JsonDBRepository.insert` (lines 70-80): build
`{...value, $id: id}`, persist its JSON image, then hand the in-memory item
(not the persisted image) to every index. Returns the state and the id. -/
def insert (st : RepoState) (id : String) (value : Obj) : RepoState × String :=
  let item := spread value [("$id", .vStr id)]
  ({ store := setA st.store id (roundtripObj item),
     indexes := st.indexes.map (fun ix => addItem ix item) }, id)

/-- Faithful model of `JsonDBRepository.edit` (lines 82-104): a missing id
throws (no state change); otherwise the stored document is shallow-merged
with the patch (`{...oldData, ...value, $id: id}`), persisted, and every
index performs `removeItem` then `addItem` with the merged item. -/
def edit (st : RepoState) (id : String) (value : Obj) : RepoState :=
  match lookupA st.store id with
  | none => st
  | some oldData =>
    let item := spread (spread oldData value) [("$id", .vStr id)]
    { store := setA st.store id (roundtripObj item),
      indexes := st.indexes.map (fun ix => addItem (removeItem ix id) item) }

/-- Faithful model of `JsonDBRepository.delete` (lines 106-116): a missing id
throws (no state change); otherwise the entity file is unlinked and every
index performs `removeItem`. -/
def delete (st : RepoState) (id : String) : RepoState :=
  match lookupA st.store id with
  | none => st
  | some _ =>
    { store := eraseA st.store id,
      indexes := st.indexes.map (fun ix => removeItem ix id) }

/-- One sequential repository operation; the id carried by an insert models
the freshly generated random id. -/
inductive Op where
  | ins (id : String) (value : Obj)
  | ed (id : String) (value : Obj)
  | del (id : String)

/-- Apply one operation (failed edits/deletes leave the state unchanged, as
the source throws before writing anything). -/
def applyOp (st : RepoState) : Op → RepoState
  | .ins id v => (insert st id v).1
  | .ed id v => edit st id v
  | .del id => delete st id

/-- Run a sequence of operations. -/
def runOps (st : RepoState) : List Op → RepoState
  | [] => st
  | op :: rest => runOps (applyOp st op) rest

/-- A freshly opened repository with the given indexed field paths: no entity
files, and both maps of every index empty (the initial remap over zero
entities). -/
def openRepo (paths : List String) : RepoState :=
  { store := [], indexes := paths.map (fun p => ⟨p, [], []⟩) }

/-- Insert ids are fresh at the moment of execution (the source draws 128-bit
random ids and treats collisions as negligible). -/
def FreshOps : RepoState → List Op → Prop
  | _, [] => True
  | st, op :: rest =>
    (match op with
     | .ins id _ => lookupA st.store id = none
     | _ => True) ∧ FreshOps (applyOp st op) rest

/-- Every payload of the sequence survives the JSON round-trip unchanged. -/
def StableOps : List Op → Prop
  | [] => True
  | .ins _ v :: rest => JsonStableObj v ∧ StableOps rest
  | .ed _ v :: rest => JsonStableObj v ∧ StableOps rest
  | .del _ :: rest => StableOps rest

/-! ## Query evaluation (JsonDBIndex.query) -/

/-- Raw query options; a field is `some` exactly when the caller passed it
(`options.hasOwnProperty(...)` in the source). `inO`/`ninO` model the
source's `in`/`nin`. -/
structure QueryOptions where
  gt : Option Value := none
  gte : Option Value := none
  lt : Option Value := none
  lte : Option Value := none
  eq : Option Value := none
  ne : Option Value := none
  inO : Option (List Value) := none
  ninO : Option (List Value) := none
  includes : Option Value := none
  excludes : Option Value := none
  empty : Option Bool := none
  notEmpty : Option Bool := none

/-- The encoded options (`usedItteratorOptions` in the source). -/
structure UsedOptions where
  gt : Option String := none
  gte : Option String := none
  lt : Option String := none
  lte : Option String := none
  eq : Option String := none
  ne : Option String := none
  inO : Option (List String) := none
  ninO : Option (List String) := none
  includes : Option String := none
  excludes : Option String := none
  empty : Option Bool := none
  notEmpty : Option Bool := none

/-- Encoding of the present options (lines 79-115 of JsonDBIndex.ts). -/
def serializeOptions (o : QueryOptions) : UsedOptions :=
  { gt := o.gt.map serializeKeyByValue
    gte := o.gte.map serializeKeyByValue
    lt := o.lt.map serializeKeyByValue
    lte := o.lte.map serializeKeyByValue
    eq := o.eq.map serializeKeyByValue
    ne := o.ne.map serializeKeyByValue
    inO := o.inO.map (List.map serializeKeyByValue)
    ninO := o.ninO.map (List.map serializeKeyByValue)
    includes := o.includes.map serializeKeyByValue
    excludes := o.excludes.map serializeKeyByValue
    empty := o.empty
    notEmpty := o.notEmpty }

/-- The array-predicate block of the filter (lines 144-175): split the bucket
key on `';'` and test membership/emptiness. -/
def arrayChecks (u : UsedOptions) (k : String) : Bool :=
  let ks := splitSemi k
  (match u.includes with | some s => ks.contains s | none => true) &&
  (match u.excludes with | some s => !(ks.contains s) | none => true) &&
  (match u.empty with
   | some b => if b then ks == [""] else !(ks == [""])
   | none => true) &&
  (match u.notEmpty with
   | some b => if b then !(ks == [""]) else ks == [""]
   | none => true)

/-- Whether bucket key `k` survives the `continue` chain of
`JsonDBIndex.query` (lines 118-175). The scalar filters replicate the
JavaScript truthiness guards (`usedItteratorOptions.gt && …`): an
empty-string encoded bound disables its own filter. -/
def bucketPass (u : UsedOptions) (k : String) : Bool :=
  (match u.gt with | some g => !(!(g == "") && strLe k g) | none => true) &&
  (match u.gte with | some g => !(!(g == "") && strLt k g) | none => true) &&
  (match u.lt with | some g => !(!(g == "") && !(strLt k g)) | none => true) &&
  (match u.lte with | some g => !(!(g == "") && !(strLe k g)) | none => true) &&
  (match u.eq with | some e0 => !(!(e0 == "") && !(k == e0)) | none => true) &&
  (match u.ne with | some n0 => !(!(n0 == "") && (k == n0)) | none => true) &&
  (match u.inO with | some l => l.contains k | none => true) &&
  (match u.ninO with | some l => !(l.contains k) | none => true) &&
  (if u.includes.isSome || u.excludes.isSome || u.empty.isSome || u.notEmpty.isSome
   then arrayChecks u k else true)

/-- The bucket scan: ids of every bucket whose key passes all filters, in
forward-map order (`results.push(...data.forward[k])`). -/
def queryIdsLoop (u : UsedOptions) : List (String × List String) → List String
  | [] => []
  | (k, ids) :: rest =>
    if bucketPass u k then ids ++ queryIdsLoop u rest else queryIdsLoop u rest

/-- Ids collected by `JsonDBIndex.query` over an index state. -/
def queryIds (ix : IndexState) (o : QueryOptions) : List String :=
  queryIdsLoop (serializeOptions o) ix.forward

/-- Full model of `JsonDBIndex.query`: filter the buckets, then resolve the
collected ids through the repository (`this.dataGetters.get(results)`). -/
def query (st : RepoState) (ix : IndexState) (o : QueryOptions) : List Obj :=
  getRaw st (queryIds ix o)

/-! ## Reference-counted open/close (src/lib/DB/LevelDB.ts) -/

/-- A logical open or close call on one storage handle. -/
inductive RefOp where
  | openOp
  | closeOp
deriving DecidableEq, Repr

/-- Faithful model of `LevelDB.open`/`LevelDB.close` (lines 13-25): the new
counter and whether the call touched the physical store.
`open`: `if (this.referenceCounter++ > 0) return; await this.db.open()`.
`close`: `if (--this.referenceCounter > 0) return; await this.db.close()`. -/
def refStep (c : Int) : RefOp → Int × Bool
  | .openOp => (c + 1, decide (c ≤ 0))
  | .closeOp => (c - 1, decide (c - 1 ≤ 0))

/-- Run a call sequence from counter `c`, recording for every call the
counter before it and whether a physical open/close happened. -/
def runRef (c : Int) : List RefOp → List (RefOp × Int × Bool)
  | [] => []
  | op :: rest =>
    (op, c, (refStep c op).2) :: runRef (refStep c op).1 rest

/-- No prefix of the call sequence has more closes than opens: every close
has a matching earlier open. -/
def BalancedOps (ops : List RefOp) : Prop :=
  ∀ n, n ≤ ops.length →
    ((ops.take n).count RefOp.closeOp : ℕ) ≤ (ops.take n).count RefOp.openOp

/-! ## Association-list lemmas -/

theorem lookupA_nil {α : Type} (x : String) : lookupA ([] : List (String × α)) x = none := rfl

theorem lookupA_cons {α : Type} (p : String × α) (t : List (String × α)) (x : String) :
    lookupA (p :: t) x = if p.1 = x then some p.2 else lookupA t x := by
  by_cases h : p.1 = x
  · simp [lookupA, List.find?_cons, h]
  · simp [lookupA, List.find?_cons, h]

theorem lookupA_append {α : Type} (l1 l2 : List (String × α)) (x : String) :
    lookupA (l1 ++ l2) x = (lookupA l1 x).or (lookupA l2 x) := by
  induction l1 with
  | nil => simp [lookupA_nil]
  | cons p t ih =>
    by_cases h : p.1 = x
    · simp [lookupA_cons, h]
    · simp [lookupA_cons, h, ih]

theorem lookupA_mapSet {α : Type} (l : List (String × α)) (k x : String) (v : α) :
    lookupA (l.map (fun p => if p.1 == k then (p.1, v) else p)) x =
      (lookupA l x).map (fun w => if x = k then v else w) := by
  induction l with
  | nil => rfl
  | cons p t ih =>
    simp only [List.map_cons]
    by_cases hk : p.1 = k
    · rw [if_pos (by simpa using hk)]
      by_cases h : p.1 = x
      · rw [lookupA_cons, if_pos h, lookupA_cons, if_pos h]
        have hxk : x = k := by rw [← h, hk]
        simp [hxk]
      · rw [lookupA_cons, if_neg h, lookupA_cons, if_neg h]
        exact ih
    · rw [if_neg (by simpa using hk)]
      by_cases h : p.1 = x
      · rw [lookupA_cons, if_pos h, lookupA_cons, if_pos h]
        have hxk : ¬x = k := by rw [← h]; exact hk
        simp [hxk]
      · rw [lookupA_cons, if_neg h, lookupA_cons, if_neg h]
        exact ih

theorem lookupA_setA {α : Type} (l : List (String × α)) (k : String) (v : α) (x : String) :
    lookupA (setA l k v) x = if x = k then some v else lookupA l x := by
  unfold setA
  by_cases hc : (l.find? (fun p => p.1 == k)).isSome
  · rw [if_pos hc, lookupA_mapSet]
    by_cases hx : x = k
    · subst hx
      have : (lookupA l x).isSome := by
        unfold lookupA
        simpa using hc
      obtain ⟨w, hw⟩ := Option.isSome_iff_exists.mp this
      rw [hw]
      simp
    · rw [if_neg hx]
      have : (fun w : α => if x = k then v else w) = fun w => w := by
        funext w
        rw [if_neg hx]
      rw [this, Option.map_id']
  · rw [if_neg hc, lookupA_append]
    by_cases hx : x = k
    · subst hx
      have hnone : lookupA l x = none := by
        unfold lookupA
        rw [Option.map_eq_none']
        exact Option.not_isSome_iff_eq_none.mp hc
      rw [hnone]
      simp [lookupA_cons]
    · rw [if_neg hx]
      have : lookupA [(k, v)] x = none := by
        rw [lookupA_cons, if_neg (fun h => hx h.symm)]
        rfl
      rw [this, Option.or_none]

theorem lookupA_eraseA {α : Type} (l : List (String × α)) (k x : String) :
    lookupA (eraseA l k) x = if x = k then none else lookupA l x := by
  induction l with
  | nil => simp [eraseA, lookupA_nil]
  | cons p t ih =>
    unfold eraseA at ih ⊢
    by_cases hk : p.1 = k
    · rw [List.filter_cons_of_neg (by simpa using hk), ih]
      by_cases hx : x = k
      · rw [if_pos hx, if_pos hx]
      · rw [if_neg hx, if_neg hx, lookupA_cons,
          if_neg (by rw [hk]; intro he; exact hx he.symm)]
    · rw [List.filter_cons_of_pos (by simpa using hk), lookupA_cons]
      by_cases hp : p.1 = x
      · rw [if_pos hp]
        have hx : ¬x = k := by rw [← hp]; exact hk
        rw [if_neg hx, lookupA_cons, if_pos hp]
      · rw [if_neg hp, ih, lookupA_cons]
        by_cases hx : x = k
        · rw [if_pos hx, if_pos hx]
        · rw [if_neg hx, if_neg hx, if_neg hp]

theorem mem_setA {α : Type} {l : List (String × α)} {k : String} {v : α} {b : String × α}
    (hb : b ∈ setA l k v) : (b ∈ l ∧ b.1 ≠ k) ∨ b = (k, v) := by
  unfold setA at hb
  by_cases hc : (l.find? (fun p => p.1 == k)).isSome
  · rw [if_pos hc] at hb
    obtain ⟨p, hp, hpb⟩ := List.mem_map.mp hb
    by_cases hk : p.1 = k
    · right
      rw [← hpb, if_pos (by simpa using hk)]
      rw [hk]
    · left
      rw [← hpb, if_neg (by simpa using hk)]
      exact ⟨hp, hk⟩
  · rw [if_neg hc] at hb
    rcases List.mem_append.mp hb with h | h
    · left
      refine ⟨h, ?_⟩
      intro hk
      apply hc
      rw [List.find?_isSome]
      exact ⟨b, h, by simpa using hk⟩
    · right
      simpa using h

theorem mem_eraseA {α : Type} {l : List (String × α)} {k : String} {b : String × α}
    (hb : b ∈ eraseA l k) : b ∈ l ∧ b.1 ≠ k := by
  unfold eraseA at hb
  have := List.mem_filter.mp hb
  exact ⟨this.1, by simpa using this.2⟩

theorem keys_setA {α : Type} (l : List (String × α)) (k : String) (v : α) :
    (setA l k v).map Prod.fst = l.map Prod.fst ∨
      (setA l k v).map Prod.fst = l.map Prod.fst ++ [k] := by
  unfold setA
  by_cases hc : (l.find? (fun p => p.1 == k)).isSome
  · left
    rw [if_pos hc, List.map_map]
    congr 1
    funext p
    by_cases hk : p.1 = k
    · simp [hk]
    · simp [hk]
  · right
    rw [if_neg hc]
    simp

theorem nodupKeys_setA {α : Type} {l : List (String × α)} {k : String} {v : α}
    (h : (l.map Prod.fst).Nodup) : ((setA l k v).map Prod.fst).Nodup := by
  rcases keys_setA l k v with he | he
  · rw [he]; exact h
  · rw [he]
    have hk : k ∉ l.map Prod.fst := by
      intro hmem
      obtain ⟨p, hp, hpk⟩ := List.mem_map.mp hmem
      have hc : (l.find? (fun p => p.1 == k)).isSome := by
        rw [List.find?_isSome]
        exact ⟨p, hp, by simpa using hpk⟩
      unfold setA at he
      rw [if_pos hc] at he
      have := congrArg List.length he
      simp at this
    simp only [List.nodup_append, List.nodup_cons, List.nodup_nil]
    refine ⟨h, by simp, ?_⟩
    intro a ha hb
    simp only [List.mem_singleton] at hb
    subst hb
    exact hk ha

theorem nodupKeys_eraseA {α : Type} {l : List (String × α)} {k : String}
    (h : (l.map Prod.fst).Nodup) : ((eraseA l k).map Prod.fst).Nodup := by
  unfold eraseA
  exact List.Nodup.sublist ((List.filter_sublist l).map Prod.fst) h

theorem lookupA_isSome_iff {α : Type} (l : List (String × α)) (k : String) :
    (lookupA l k).isSome ↔ ∃ b ∈ l, b.1 = k := by
  unfold lookupA
  constructor
  · intro h
    have hf : (l.find? (fun p => p.1 == k)).isSome := by
      cases hfind : l.find? (fun p => p.1 == k) with
      | none => rw [hfind] at h; simp at h
      | some p => simp
    obtain ⟨b, hb, hbk⟩ := List.find?_isSome.mp hf
    exact ⟨b, hb, by simpa using hbk⟩
  · rintro ⟨b, hb, hk⟩
    have hf : (l.find? (fun p => p.1 == k)).isSome :=
      List.find?_isSome.mpr ⟨b, hb, by simpa using hk⟩
    cases hfind : l.find? (fun p => p.1 == k) with
    | none => rw [hfind] at hf; simp at hf
    | some p => simp

theorem lookupA_eq_some {α : Type} {l : List (String × α)} {k : String} {w : α}
    (h : lookupA l k = some w) : (k, w) ∈ l := by
  unfold lookupA at h
  obtain ⟨p, hp, hpw⟩ := Option.map_eq_some'.mp h
  have hmem := List.mem_of_find?_eq_some hp
  have hkey := List.find?_some hp
  have : p.1 = k := by simpa using hkey
  have : p = (k, w) := by
    cases p
    simp_all
  rw [← this]
  exact hmem

theorem lookupA_of_mem_nodup {α : Type} {l : List (String × α)} {b : String × α}
    (hnd : (l.map Prod.fst).Nodup) (hb : b ∈ l) : lookupA l b.1 = some b.2 := by
  induction l with
  | nil => simp at hb
  | cons p t ih =>
    rcases List.mem_cons.mp hb with h | h
    · subst h
      rw [lookupA_cons, if_pos rfl]
    · have hnd' : (t.map Prod.fst).Nodup := (List.nodup_cons.mp hnd).2
      have hne : p.1 ≠ b.1 := by
        intro he
        have : p.1 ∈ t.map Prod.fst := he ▸ List.mem_map.mpr ⟨b, h, he.symm ▸ rfl⟩
        exact (List.nodup_cons.mp hnd).1 this
      rw [lookupA_cons, if_neg hne]
      exact ih hnd' h

/-! ## Claim C4: removing an unindexed id is a harmless no-op -/

/-- C4: calling the index's `remove(id)` when `id` has no backward-map entry
(for example a second `remove(id)` immediately after a successful one)
completes without error and leaves the forward and backward maps exactly
unchanged, so no other bucket's id list is corrupted. -/
theorem claim_C4_remove_missing_noop (ix : IndexState) (id : String)
    (h : lookupA ix.backward id = none) : removeItem ix id = ix := by
  unfold removeItem
  rw [h]

/-- Witness for C4 at a concrete index that holds an unrelated bucket. -/
theorem claim_C4_witness :
    lookupA (IndexState.mk "f" [("k", ["a"])] [("a", "k")]).backward "b" = none ∧
      removeItem (IndexState.mk "f" [("k", ["a"])] [("a", "k")]) "b" =
        IndexState.mk "f" [("k", ["a"])] [("a", "k")] :=
  ⟨rfl, claim_C4_remove_missing_noop (IndexState.mk "f" [("k", ["a"])] [("a", "k")]) "b" rfl⟩

/-! ## Claim C5: reference-counted physical open/close -/

theorem runRef_phys (c : Int) (ops : List RefOp) (hc : 0 ≤ c)
    (hbal : ∀ n, ((ops.take n).count RefOp.closeOp : Int) ≤
      c + (ops.take n).count RefOp.openOp) :
    ∀ e ∈ runRef c ops,
      e.2.2 = true ↔ (e.1 = RefOp.openOp ∧ e.2.1 = 0) ∨
        (e.1 = RefOp.closeOp ∧ e.2.1 = 1) := by
  induction ops generalizing c with
  | nil => intro e he; simp [runRef] at he
  | cons op rest ih =>
    intro e he
    rcases List.mem_cons.mp he with he | he
    · subst he
      cases op with
      | openOp =>
        show decide (c ≤ 0) = true ↔
          (RefOp.openOp = RefOp.openOp ∧ c = 0) ∨ (RefOp.openOp = RefOp.closeOp ∧ c = 1)
        rw [decide_eq_true_eq]
        constructor
        · intro h
          exact Or.inl ⟨rfl, by omega⟩
        · rintro (⟨_, h⟩ | ⟨h, _⟩)
          · omega
          · exact RefOp.noConfusion h
      | closeOp =>
        have h1 : (1 : Int) ≤ c := by
          have := hbal 1
          simp [List.count_cons, List.take_succ_cons, List.take_zero] at this
          omega
        show decide (c - 1 ≤ 0) = true ↔
          (RefOp.closeOp = RefOp.openOp ∧ c = 0) ∨ (RefOp.closeOp = RefOp.closeOp ∧ c = 1)
        rw [decide_eq_true_eq]
        constructor
        · intro h
          exact Or.inr ⟨rfl, by omega⟩
        · rintro (⟨h, _⟩ | ⟨_, h⟩)
          · exact RefOp.noConfusion h
          · omega
    · have hc' : 0 ≤ (refStep c op).1 := by
        cases op with
        | openOp => simp only [refStep]; omega
        | closeOp =>
          have := hbal 1
          simp [List.count_cons, List.take_succ_cons, List.take_zero] at this
          simp only [refStep]
          omega
      have hbal' : ∀ n, ((rest.take n).count RefOp.closeOp : Int) ≤
          (refStep c op).1 + (rest.take n).count RefOp.openOp := by
        intro n
        have := hbal (n + 1)
        cases op with
        | openOp =>
          simp only [List.take_succ_cons, List.count_cons] at this
          simp only [refStep]
          simp at this
          omega
        | closeOp =>
          simp only [List.take_succ_cons, List.count_cons] at this
          simp only [refStep]
          simp at this
          omega
      exact ih (refStep c op).1 hc' hbal' e he

/-- C5 (amended): as long as no `close()` is issued without a prior matching
`open()` (no prefix has more closes than opens), the physical store is opened
exactly on the counter's 0→1 transitions and physically closed exactly on the
1→0 transitions; in particular `open()` at a positive counter and a `close()`
leaving the counter positive touch nothing physical. -/
theorem claim_C5_refcount_amended (ops : List RefOp) (hbal : BalancedOps ops) :
    ∀ e ∈ runRef 0 ops,
      e.2.2 = true ↔ (e.1 = RefOp.openOp ∧ e.2.1 = 0) ∨
        (e.1 = RefOp.closeOp ∧ e.2.1 = 1) := by
  apply runRef_phys 0 ops le_rfl
  intro n
  rcases le_or_lt n ops.length with hn | hn
  · have := hbal n hn
    omega
  · have heq : ops.take n = ops := List.take_of_length_le (le_of_lt hn)
    have := hbal ops.length le_rfl
    rw [List.take_length] at this
    rw [heq]
    omega

/-- Witness for C5 (amended) on the sequence open, open, close, close. -/
theorem claim_C5_witness :
    BalancedOps [RefOp.openOp, RefOp.openOp, RefOp.closeOp, RefOp.closeOp] ∧
      ∀ e ∈ runRef 0 [RefOp.openOp, RefOp.openOp, RefOp.closeOp, RefOp.closeOp],
        e.2.2 = true ↔ (e.1 = RefOp.openOp ∧ e.2.1 = 0) ∨
          (e.1 = RefOp.closeOp ∧ e.2.1 = 1) :=
  ⟨by intro n hn; simp at hn; interval_cases n <;> decide,
   claim_C5_refcount_amended _ (by intro n hn; simp at hn; interval_cases n <;> decide)⟩

/-- C5 counterexample: a single unmatched `close()` call physically closes
the store (`this.db.close()` runs) although the counter transition is 0 → -1,
not 1 → 0 — refuting the claim for arbitrary call sequences. -/
theorem claim_C5_counterexample :
    runRef 0 [RefOp.closeOp] = [(RefOp.closeOp, 0, true)] ∧ (0 : Int) ≠ 1 :=
  ⟨rfl, by decide⟩

/-! ## Claim C10: `get(ids)` resolves exactly the existing ids, in order -/

/-- C10: `getRaw` returns the documents of exactly those requested ids that
exist, in the order the ids were given (`filterMap`), never failing on a
missing id, and returns the empty result on the empty id list. -/
theorem claim_C10_get_existing (st : RepoState) :
    getRaw st [] = [] ∧
      ∀ ids, getRaw st ids = ids.filterMap (fun id => getOneRaw st id) := by
  refine ⟨rfl, ?_⟩
  intro ids
  induction ids with
  | nil => rfl
  | cons id rest ih =>
    unfold getRaw
    cases h : getOneRaw st id with
    | some data => simp [List.filterMap_cons, h, ih]
    | none => simp [List.filterMap_cons, h, ih]

/-! ## Claim C2: the key encoding is order-preserving within numbers/dates -/

/-- C2: for all numbers `a < b` (as decimal rationals, the model of JavaScript
numbers), `serializeKeyByValue a` is lexicographically strictly below
`serializeKeyByValue b`; likewise for `Date` values ordered by timestamp; in
particular `encode(-5) < encode(0) < encode(3.2)`. -/
theorem claim_C2_encoding_order :
    (∀ a b : Dec, a.toRat < b.toRat →
      strLt (serializeKeyByValue (.vNum a)) (serializeKeyByValue (.vNum b)) = true) ∧
    (∀ t1 t2 : Int, t1 < t2 →
      strLt (serializeKeyByValue (.vDate t1)) (serializeKeyByValue (.vDate t2)) = true) ∧
    strLt (serializeKeyByValue (.vNum ⟨-5, 0⟩)) (serializeKeyByValue (.vNum ⟨0, 0⟩)) = true ∧
    strLt (serializeKeyByValue (.vNum ⟨0, 0⟩)) (serializeKeyByValue (.vNum ⟨32, -1⟩)) = true := by
  refine ⟨?_, ?_, by decide, by decide⟩
  · intro a b h
    exact charwiseEncode_strictMono h
  · intro t1 t2 h
    apply charwiseEncode_strictMono
    show Dec.toRat ⟨t1, 0⟩ < Dec.toRat ⟨t2, 0⟩
    unfold Dec.toRat
    simp only [zpow_zero, mul_one]
    exact_mod_cast h

/-- Witness for C2 applying the monotonicity statements at concrete inputs
(1.5 < 2 as numbers, and two concrete timestamps). -/
theorem claim_C2_witness :
    strLt (serializeKeyByValue (.vNum ⟨15, -1⟩)) (serializeKeyByValue (.vNum ⟨2, 0⟩)) = true ∧
      strLt (serializeKeyByValue (.vDate 1000)) (serializeKeyByValue (.vDate 2000)) = true :=
  ⟨claim_C2_encoding_order.1 ⟨15, -1⟩ ⟨2, 0⟩ (by norm_num [Dec.toRat]),
   claim_C2_encoding_order.2.1 1000 2000 (by norm_num)⟩

/-! ## Claim C8: array join/split round-trip -/

theorem splitChar_no_sep {sep : Char} {l : List Char} (h : sep ∉ l) :
    splitChar sep l = [l] := by
  induction l with
  | nil => rfl
  | cons a rest ih =>
    unfold splitChar
    have ha : ¬(a = sep) := fun he => h (he ▸ List.mem_cons_self a rest)
    rw [if_neg ha, ih (fun hm => h (List.mem_cons_of_mem a hm))]

theorem splitChar_append {sep : Char} {p : List Char} (hp : sep ∉ p) (t : List Char) :
    splitChar sep (p ++ sep :: t) = p :: splitChar sep t := by
  induction p with
  | nil => simp [splitChar]
  | cons a q ih =>
    have ha : ¬(a = sep) := fun he => hp (he ▸ List.mem_cons_self a q)
    have hq := ih (fun hm => hp (List.mem_cons_of_mem a hm))
    rw [List.cons_append]
    show (if a = sep then [] :: splitChar sep (q ++ sep :: t)
      else
        match splitChar sep (q ++ sep :: t) with
        | [] => [[a]]
        | h :: t => (a :: h) :: t) = (a :: q) :: splitChar sep t
    rw [if_neg ha, hq]

theorem data_append_semi (s j : String) :
    (s ++ ";" ++ j).data = s.data ++ ';' :: j.data := by
  simp [String.data_append]

theorem splitSemi_joinSemi (parts : List String) (hne : parts ≠ [])
    (hfree : ∀ p ∈ parts, ';' ∉ p.data) :
    splitSemi (joinSemi parts) = parts := by
  induction parts with
  | nil => exact absurd rfl hne
  | cons s rest ih =>
    cases rest with
    | nil =>
      show (splitChar ';' s.data).map String.mk = [s]
      rw [splitChar_no_sep (hfree s (by simp))]
      rfl
    | cons t rest2 =>
      have hj : joinSemi (s :: t :: rest2) = s ++ ";" ++ joinSemi (t :: rest2) := rfl
      unfold splitSemi
      rw [hj, data_append_semi, splitChar_append (hfree s (by simp)), List.map_cons]
      have hih := ih (by simp) (fun p hp => hfree p (by simp [hp]))
      unfold splitSemi at hih
      rw [hih]

/-- C8 (amended): the encoding of an array joins the element encodings with
`';'` and the empty array encodes to the empty string; splitting on `';'`
recovers exactly the element encodings for every non-empty array whose
element encodings are themselves `';'`-free (string elements may contain
`';'`, so the separator is not in general absent from element encodings). -/
theorem claim_C8_array_join_amended :
    (∀ elems : List Value,
      serializeKeyByValue (.vArr elems) = joinSemi (elems.map serializeKeyByValue)) ∧
    serializeKeyByValue (.vArr []) = "" ∧
    ∀ elems : List Value, elems ≠ [] →
      (∀ e ∈ elems, ';' ∉ (serializeKeyByValue e).data) →
      splitSemi (serializeKeyByValue (.vArr elems)) = elems.map serializeKeyByValue := by
  have hmap : ∀ elems : List Value,
      serializeKeyByValue (.vArr elems) = joinSemi (elems.map serializeKeyByValue) := by
    intro elems
    show joinSemi (serializeKeyList elems) = _
    rw [serializeKeyList_eq_map]
  refine ⟨hmap, rfl, ?_⟩
  intro elems hne hfree
  rw [hmap]
  apply splitSemi_joinSemi
  · simpa using hne
  · intro p hp
    obtain ⟨e, he, rfl⟩ := List.mem_map.mp hp
    exact hfree e he

/-- Witness for C8 (amended) on the array `["x", 7]`. -/
theorem claim_C8_witness :
    splitSemi (serializeKeyByValue (.vArr [.vStr "x", .vNum ⟨7, 0⟩])) =
      List.map serializeKeyByValue [Value.vStr "x", Value.vNum ⟨7, 0⟩] :=
  claim_C8_array_join_amended.2.2 [.vStr "x", .vNum ⟨7, 0⟩] (by simp) (by decide)

/-- C8 counterexample: the string element `"a;b"` keeps its `';'` in the
encoding (the separator does occur inside element encodings), and splitting
the encoding of `["a;b"]` does not recover the element encodings. -/
theorem claim_C8_counterexample :
    (';' ∈ (serializeKeyByValue (.vStr "a;b")).data) ∧
      splitSemi (serializeKeyByValue (.vArr [.vStr "a;b"])) ≠
        [serializeKeyByValue (.vStr "a;b")] := by
  constructor
  · decide
  · decide

/-! ## Claim C9: the `undefined`/`null` sentinels -/

theorem string_data_inj {a b : String} (h : a.data = b.data) : a = b :=
  congrArg String.mk h

theorem ne_of_head_ne {a b : String} (h : a.data.head? ≠ b.data.head?) : a ≠ b :=
  fun he => h (by rw [he])

theorem hashString_data (s : String) : (hashString s).data = '#' :: s.data := by
  simp [hashString, String.data_append]

theorem charwiseEncode_head (d : Dec) :
    (charwiseEncode d).data.head? = some 'F' ∨
      (charwiseEncode d).data.head? = some 'T' ∨
      (charwiseEncode d).data.head? = some 'D' := by
  by_cases h0 : d.m = 0
  · left
    simp [charwiseEncode, h0]
  · by_cases hp : 0 < d.m
    · right; left
      simp [charwiseEncode, h0, hp]
    · right; right
      simp [charwiseEncode, h0, hp]

theorem charwiseEncode_ne_hash (d : Dec) (s : String) :
    charwiseEncode d ≠ hashString s := by
  apply ne_of_head_ne
  rw [hashString_data, List.head?_cons]
  rcases charwiseEncode_head d with h | h | h <;> rw [h] <;> decide

theorem jsonStringify_obj_head (fields : Obj) :
    (jsonStringify (.vObj fields)).data.head? = some '{' := by
  show (("\x7b" ++ String.intercalate "," (jsonFieldList fields) ++ "\x7d")).data.head? = some '{'
  simp [String.data_append]

/-- C9 (amended): the `undefined` sentinel and the `null` sentinel are two
distinct fixed strings, and the encoding of every defined, non-null number,
`Date`, boolean, and plain-object value differs from both; a string value
encodes to itself, so it differs from the sentinels exactly when it is not
itself one of the two sentinel strings (and array encodings can likewise
degenerate to a sentinel, see the counterexample). -/
theorem claim_C9_sentinels_amended :
    hashString "undefined" ≠ hashString "null" ∧
    (∀ n : Dec, serializeKeyByValue (.vNum n) ≠ hashString "undefined" ∧
      serializeKeyByValue (.vNum n) ≠ hashString "null") ∧
    (∀ t : Int, serializeKeyByValue (.vDate t) ≠ hashString "undefined" ∧
      serializeKeyByValue (.vDate t) ≠ hashString "null") ∧
    (∀ b : Bool, serializeKeyByValue (.vBool b) ≠ hashString "undefined" ∧
      serializeKeyByValue (.vBool b) ≠ hashString "null") ∧
    (∀ fields : Obj, serializeKeyByValue (.vObj fields) ≠ hashString "undefined" ∧
      serializeKeyByValue (.vObj fields) ≠ hashString "null") ∧
    (∀ s : String, s ≠ hashString "undefined" → s ≠ hashString "null" →
      serializeKeyByValue (.vStr s) ≠ hashString "undefined" ∧
      serializeKeyByValue (.vStr s) ≠ hashString "null") := by
  refine ⟨by decide, ?_, ?_, ?_, ?_, ?_⟩
  · intro n
    exact ⟨charwiseEncode_ne_hash n _, charwiseEncode_ne_hash n _⟩
  · intro t
    exact ⟨charwiseEncode_ne_hash _ _, charwiseEncode_ne_hash _ _⟩
  · intro b
    cases b
    · exact ⟨by decide, by decide⟩
    · exact ⟨by decide, by decide⟩
  · intro fields
    constructor
    · show hashString (jsonStringify (.vObj fields)) ≠ hashString "undefined"
      intro h
      have hd : (hashString (jsonStringify (.vObj fields))).data =
          (hashString "undefined").data := by rw [h]
      rw [hashString_data, hashString_data] at hd
      have hjson : jsonStringify (.vObj fields) = "undefined" :=
        string_data_inj (List.cons.injEq .. |>.mp hd).2
      have := jsonStringify_obj_head fields
      rw [hjson] at this
      exact absurd this (by decide)
    · show hashString (jsonStringify (.vObj fields)) ≠ hashString "null"
      intro h
      have hd : (hashString (jsonStringify (.vObj fields))).data =
          (hashString "null").data := by rw [h]
      rw [hashString_data, hashString_data] at hd
      have hjson : jsonStringify (.vObj fields) = "null" :=
        string_data_inj (List.cons.injEq .. |>.mp hd).2
      have := jsonStringify_obj_head fields
      rw [hjson] at this
      exact absurd this (by decide)
  · intro s h1 h2
    exact ⟨h1, h2⟩

/-- Witness for C9 (amended), applying the string clause at `"x"`. -/
theorem claim_C9_witness :
    serializeKeyByValue (.vStr "x") ≠ hashString "undefined" ∧
      serializeKeyByValue (.vStr "x") ≠ hashString "null" :=
  claim_C9_sentinels_amended.2.2.2.2.2 "x" (by decide) (by decide)

/-- C9 counterexample: the singleton array `[undefined]` is a defined,
non-null value whose encoding collapses (by the `';'`-join of one element) to
exactly the `undefined` sentinel, refuting "distinct from the encoding of
every defined value". -/
theorem claim_C9_counterexample :
    serializeKeyByValue (.vArr [.vUndefined]) = serializeKeyByValue .vUndefined ∧
      Value.vArr [.vUndefined] ≠ Value.vUndefined :=
  ⟨rfl, fun h => Value.noConfusion h⟩

/-! ## Claim C7: `eq`/`ne` queries match buckets by exact encoded string -/

theorem queryIdsLoop_eq_filter (u : UsedOptions) (l : List (String × List String)) :
    queryIdsLoop u l = ((l.filter (fun b => bucketPass u b.1)).map Prod.snd).flatten := by
  induction l with
  | nil => rfl
  | cons b rest ih =>
    obtain ⟨k, ids⟩ := b
    by_cases h : bucketPass u k
    · rw [List.filter_cons_of_pos (by simpa using h)]
      simp only [queryIdsLoop, if_pos h, List.map_cons, List.flatten_cons, ih]
    · rw [List.filter_cons_of_neg (by simpa using h)]
      simp only [queryIdsLoop, if_neg h, ih]

theorem bucketPass_eq_only {s : String} (hs : s ≠ "") (k : String) :
    bucketPass { eq := some s } k = (k == s) := by
  have h0 : (s == "") = false := by simpa using hs
  simp [bucketPass, h0]

theorem bucketPass_ne_only {s : String} (hs : s ≠ "") (k : String) :
    bucketPass { ne := some s } k = !(k == s) := by
  have h0 : (s == "") = false := by simpa using hs
  simp [bucketPass, h0]

/-- C7 (amended): for every query value whose encoded string is non-empty,
the `eq` option returns exactly the ids (and, resolved through `getRaw`, the
entities) of the buckets whose key equals the encoded string of the value,
and `ne` exactly those of the buckets whose key differs — decided by exact
encoded-string comparison. (A value encoding to the empty string disables the
filter because of JavaScript truthiness; see the counterexample.) -/
theorem claim_C7_eq_ne_amended (st : RepoState) (ix : IndexState) (v : Value)
    (h : serializeKeyByValue v ≠ "") :
    queryIds ix { eq := some v } =
      ((ix.forward.filter (fun b => b.1 = serializeKeyByValue v)).map Prod.snd).flatten ∧
    queryIds ix { ne := some v } =
      ((ix.forward.filter (fun b => ¬(b.1 = serializeKeyByValue v))).map Prod.snd).flatten ∧
    query st ix { eq := some v } =
      getRaw st (((ix.forward.filter
        (fun b => b.1 = serializeKeyByValue v)).map Prod.snd).flatten) ∧
    query st ix { ne := some v } =
      getRaw st (((ix.forward.filter
        (fun b => ¬(b.1 = serializeKeyByValue v))).map Prod.snd).flatten) := by
  have heq : queryIds ix { eq := some v } =
      ((ix.forward.filter (fun b => b.1 = serializeKeyByValue v)).map Prod.snd).flatten := by
    show queryIdsLoop (serializeOptions { eq := some v }) ix.forward = _
    rw [queryIdsLoop_eq_filter]
    have hfil : ix.forward.filter
        (fun b => bucketPass (serializeOptions { eq := some v }) b.1) =
        ix.forward.filter (fun b => decide (b.1 = serializeKeyByValue v)) := by
      apply List.filter_congr
      intro b _
      rw [show serializeOptions { eq := some v } = { eq := some (serializeKeyByValue v) }
        from rfl]
      rw [bucketPass_eq_only h]
      by_cases hk : b.1 = serializeKeyByValue v <;> simp [hk]
    rw [hfil]
  have hne : queryIds ix { ne := some v } =
      ((ix.forward.filter
        (fun b => ¬(b.1 = serializeKeyByValue v))).map Prod.snd).flatten := by
    show queryIdsLoop (serializeOptions { ne := some v }) ix.forward = _
    rw [queryIdsLoop_eq_filter]
    have hfil : ix.forward.filter
        (fun b => bucketPass (serializeOptions { ne := some v }) b.1) =
        ix.forward.filter (fun b => decide (¬(b.1 = serializeKeyByValue v))) := by
      apply List.filter_congr
      intro b _
      rw [show serializeOptions { ne := some v } = { ne := some (serializeKeyByValue v) }
        from rfl]
      rw [bucketPass_ne_only h]
      by_cases hk : b.1 = serializeKeyByValue v <;> simp [hk]
    rw [hfil]
  refine ⟨heq, hne, ?_, ?_⟩
  · show getRaw st (queryIds ix { eq := some v }) = _
    rw [heq]
  · show getRaw st (queryIds ix { ne := some v }) = _
    rw [hne]

/-- Witness for C7 (amended) on a two-bucket index and the value "x". -/
theorem claim_C7_witness :
    queryIds (IndexState.mk "f" [("x", ["i1"]), ("y", ["i2"])] [])
        { eq := some (.vStr "x") } =
      (((IndexState.mk "f" [("x", ["i1"]), ("y", ["i2"])] []).forward.filter
        (fun b => b.1 = serializeKeyByValue (.vStr "x"))).map Prod.snd).flatten :=
  (claim_C7_eq_ne_amended (RepoState.mk [] []) _ _ (by decide)).1

/-- C7 counterexample: the empty string encodes to `""`, which is falsy, so
the `eq` filter is skipped and the query returns the id of a bucket whose key
is not the encoded value — refuting exact-match semantics for every
indexable value. -/
theorem claim_C7_counterexample :
    serializeKeyByValue (.vStr "") = "" ∧
      queryIds (IndexState.mk "f" [("a", ["i1"])] []) { eq := some (.vStr "") } = ["i1"] ∧
      ("a" : String) ≠ "" := by
  refine ⟨rfl, by decide, by decide⟩

/-! ## Spread and round-trip lemmas -/

theorem lookupA_mapOverride (a b : Obj) (k : String) :
    lookupA (a.map (fun p => match lookupA b p.1 with | some v => (p.1, v) | none => p)) k =
      match lookupA a k with
      | none => none
      | some av => some ((lookupA b k).getD av) := by
  induction a with
  | nil => rfl
  | cons p t ih =>
    simp only [List.map_cons]
    by_cases h : p.1 = k
    · cases hb : lookupA b p.1 with
      | some v =>
        simp only [hb]
        rw [lookupA_cons, if_pos h, lookupA_cons, if_pos h]
        rw [← h, hb]
        rfl
      | none =>
        simp only [hb]
        rw [lookupA_cons, if_pos h, lookupA_cons, if_pos h]
        rw [← h, hb]
        rfl
    · cases hb : lookupA b p.1 with
      | some v =>
        simp only [hb]
        rw [lookupA_cons, if_neg h, lookupA_cons, if_neg h]
        exact ih
      | none =>
        simp only [hb]
        rw [lookupA_cons, if_neg h, lookupA_cons, if_neg h]
        exact ih

theorem lookupA_filterNew (a b : Obj) (k : String) :
    lookupA (b.filter (fun q => (lookupA a q.1).isNone)) k =
      if (lookupA a k).isNone then lookupA b k else none := by
  induction b with
  | nil =>
    by_cases hik : (lookupA a k).isNone <;> simp [lookupA_nil, hik]
  | cons q t ih =>
    by_cases hq : (lookupA a q.1).isNone
    · rw [List.filter_cons_of_pos (by simpa using hq)]
      by_cases hk : q.1 = k
      · rw [lookupA_cons, if_pos hk, lookupA_cons, if_pos hk, if_pos (hk ▸ hq)]
      · rw [lookupA_cons, if_neg hk, ih]
        by_cases hik : (lookupA a k).isNone
        · rw [if_pos hik, if_pos hik, lookupA_cons, if_neg hk]
        · rw [if_neg hik, if_neg hik]
    · rw [List.filter_cons_of_neg (by simpa using hq)]
      rw [ih]
      by_cases hk : q.1 = k
      · have hik : ¬(lookupA a k).isNone := by rw [← hk]; exact hq
        rw [if_neg hik, if_neg hik]
      · by_cases hik : (lookupA a k).isNone
        · rw [if_pos hik, if_pos hik, lookupA_cons, if_neg hk]
        · rw [if_neg hik, if_neg hik]

theorem lookupA_spread (a b : Obj) (k : String) :
    lookupA (spread a b) k = (lookupA b k).or (lookupA a k) := by
  unfold spread
  rw [lookupA_append, lookupA_mapOverride, lookupA_filterNew]
  cases ha : lookupA a k with
  | none => cases hb : lookupA b k <;> simp
  | some av => cases hb : lookupA b k <;> simp

theorem roundtripObj_eq_filterMap (o : Obj) :
    roundtripObj o =
      o.filterMap (fun p => (roundtripVal p.2).map (fun w => (p.1, w))) := by
  unfold roundtripObj
  induction o with
  | nil => rfl
  | cons p t ih =>
    obtain ⟨k, v⟩ := p
    show roundtripFields ((k, v) :: t) = _
    unfold roundtripFields
    cases hv : roundtripVal v with
    | none => simp [List.filterMap_cons, hv, ih]
    | some w => simp [List.filterMap_cons, hv, ih]

theorem filterMap_eq_self {α : Type} {f : α → Option α} :
    ∀ {l : List α}, l.filterMap f = l → ∀ x ∈ l, f x = some x := by
  intro l
  induction l with
  | nil => intro _ x hx; simp at hx
  | cons a t ih =>
    intro h x hx
    rw [List.filterMap_cons] at h
    cases hf : f a with
    | none =>
      rw [hf] at h
      exfalso
      have hlen := List.length_filterMap_le f t
      have := congrArg List.length h
      simp at this
      omega
    | some b =>
      rw [hf] at h
      have hb : b = a ∧ t.filterMap f = t := by
        have h1 := List.cons.injEq b (t.filterMap f) a t ▸ h
        exact ⟨(List.cons.injEq .. |>.mp h).1, (List.cons.injEq .. |>.mp h).2⟩
      rcases List.mem_cons.mp hx with hx | hx
      · subst hx
        rw [hf, hb.1]
      · exact ih hb.2 x hx

theorem stableObj_iff {o : Obj} :
    JsonStableObj o ↔ ∀ p ∈ o, roundtripVal p.2 = some p.2 := by
  unfold JsonStableObj
  rw [roundtripObj_eq_filterMap]
  constructor
  · intro h p hp
    have hps := filterMap_eq_self h p hp
    cases hv : roundtripVal p.2 with
    | none => rw [hv] at hps; simp at hps
    | some w =>
      rw [hv] at hps
      simp only [Option.map_some'] at hps
      have hpw : (p.1, w) = p := Option.some.inj hps
      have hw : w = p.2 := congrArg Prod.snd hpw
      rw [hw]
  · intro h
    induction o with
    | nil => rfl
    | cons p t ih =>
      rw [List.filterMap_cons, h p (by simp)]
      simp only [Option.map_some']
      rw [ih (fun q hq => h q (by simp [hq]))]

theorem spread_stable {a b : Obj} (ha : JsonStableObj a) (hb : JsonStableObj b) :
    JsonStableObj (spread a b) := by
  rw [stableObj_iff] at ha hb ⊢
  intro p hp
  unfold spread at hp
  rcases List.mem_append.mp hp with hp | hp
  · obtain ⟨q, hq, hqp⟩ := List.mem_map.mp hp
    cases hl : lookupA b q.1 with
    | some v =>
      rw [hl] at hqp
      have hmem : (q.1, v) ∈ b := lookupA_eq_some hl
      have := hb (q.1, v) hmem
      rw [← hqp]
      exact this
    | none =>
      rw [hl] at hqp
      rw [← hqp]
      exact ha q hq
  · exact hb p (List.mem_filter.mp hp).1

theorem singleton_id_stable (id : String) :
    JsonStableObj [("$id", Value.vStr id)] := rfl

/-! ## Claim C3: insert followed by getOne -/

/-- C3 (amended): for every JSON-stable entity body `E` (built from strings,
numbers, booleans, null and nested objects/arrays thereof — no `Date`),
`insert` returns the generated id and a subsequent `getOne` with that id
returns exactly `E` extended with the `$id` field: `$id` holds the id, and
every other key reads back exactly as in `E`. (`Date` fields come back as
their ISO-string serialisation instead; see the counterexample.) -/
theorem claim_C3_insert_getOne_amended (st : RepoState) (id : String) (E : Obj)
    (hE : JsonStableObj E) :
    (insert st id E).2 = id ∧
    getOneRaw (insert st id E).1 id = some (spread E [("$id", Value.vStr id)]) ∧
    lookupA (spread E [("$id", Value.vStr id)]) "$id" = some (Value.vStr id) ∧
    (∀ key, key ≠ "$id" →
      lookupA (spread E [("$id", Value.vStr id)]) key = lookupA E key) := by
  have hitem : JsonStableObj (spread E [("$id", Value.vStr id)]) :=
    spread_stable hE (singleton_id_stable id)
  refine ⟨rfl, ?_, ?_, ?_⟩
  · show lookupA (setA st.store id (roundtripObj (spread E [("$id", Value.vStr id)]))) id = _
    rw [lookupA_setA, if_pos rfl, hitem]
  · rw [lookupA_spread]
    rw [show lookupA [("$id", Value.vStr id)] "$id" = some (Value.vStr id) from rfl]
    rfl
  · intro key hk
    rw [lookupA_spread]
    have hnone : lookupA [("$id", Value.vStr id)] key = none := by
      rw [lookupA_cons, if_neg (fun h => hk h.symm)]
      rfl
    rw [hnone, Option.none_or]

/-- Witness for C3 (amended): inserting `{name: "David"}` into an empty
repository and reading it back. -/
theorem claim_C3_witness :
    getOneRaw (insert (openRepo []) "i1" [("name", Value.vStr "David")]).1 "i1" =
      some (spread [("name", Value.vStr "David")] [("$id", Value.vStr "i1")]) :=
  (claim_C3_insert_getOne_amended (openRepo []) "i1" [("name", Value.vStr "David")] rfl).2.1

/-- C3 counterexample: a `Date` field does not survive insert/getOne —
the JSON persistence turns it into its ISO string, so the document read back
is not `E` plus `$id`. -/
theorem claim_C3_counterexample :
    getOneRaw (insert (openRepo []) "i1" [("d", Value.vDate 0)]).1 "i1" =
      some [("d", Value.vStr "1970-01-01T00:00:00.000Z"), ("$id", Value.vStr "i1")] ∧
    getOneRaw (insert (openRepo []) "i1" [("d", Value.vDate 0)]).1 "i1" ≠
      some (spread [("d", Value.vDate 0)] [("$id", Value.vStr "i1")]) := by
  refine ⟨rfl, ?_⟩
  intro h
  have h2 := congrArg (Option.map (fun fields : Obj =>
    serializeKeyByValue (getByExpression (.vObj fields) "d"))) h
  have hL : Option.map (fun fields : Obj =>
      serializeKeyByValue (getByExpression (.vObj fields) "d"))
      (getOneRaw (insert (openRepo []) "i1" [("d", Value.vDate 0)]).1 "i1") =
      some "1970-01-01T00:00:00.000Z" := rfl
  have hR : Option.map (fun fields : Obj =>
      serializeKeyByValue (getByExpression (.vObj fields) "d"))
      (some (spread [("d", Value.vDate 0)] [("$id", Value.vStr "i1")])) =
      some "F" := rfl
  rw [hL, hR] at h2
  exact absurd (Option.some.inj h2) (by decide)

/-! ## Claim C6: edit is a shallow merge -/

/-- C6: when an entity with the given id exists, `edit(id, partialData)`
stores the shallow merge of the patch over the stored document: `$id` stays
the id, every top-level key present in `partialData` reads back with exactly
the patch's value (nested objects replaced wholesale, not deep-merged), and
every top-level key absent from `partialData` keeps its stored value. -/
theorem claim_C6_edit_shallow_merge (st : RepoState) (id : String) (old p : Obj)
    (hold : lookupA st.store id = some old)
    (holdStable : JsonStableObj old) (hp : JsonStableObj p) :
    ∃ res, getOneRaw (edit st id p) id = some res ∧
      lookupA res "$id" = some (Value.vStr id) ∧
      (∀ key, key ≠ "$id" → (lookupA p key).isSome →
        lookupA res key = lookupA p key) ∧
      (∀ key, key ≠ "$id" → lookupA p key = none →
        lookupA res key = lookupA old key) := by
  refine ⟨spread (spread old p) [("$id", Value.vStr id)], ?_, ?_, ?_, ?_⟩
  · have hitem : JsonStableObj (spread (spread old p) [("$id", Value.vStr id)]) :=
      spread_stable (spread_stable holdStable hp) (singleton_id_stable id)
    show lookupA (edit st id p).store id = _
    unfold edit
    rw [hold]
    show lookupA (setA st.store id
      (roundtripObj (spread (spread old p) [("$id", Value.vStr id)]))) id = _
    rw [lookupA_setA, if_pos rfl, hitem]
  · rw [lookupA_spread]
    rw [show lookupA [("$id", Value.vStr id)] "$id" = some (Value.vStr id) from rfl]
    rfl
  · intro key hk hkp
    rw [lookupA_spread]
    have hnone : lookupA [("$id", Value.vStr id)] key = none := by
      rw [lookupA_cons, if_neg (fun h => hk h.symm)]
      rfl
    rw [hnone, Option.none_or, lookupA_spread]
    obtain ⟨w, hw⟩ := Option.isSome_iff_exists.mp hkp
    rw [hw]
    rfl
  · intro key hk hkp
    rw [lookupA_spread]
    have hnone : lookupA [("$id", Value.vStr id)] key = none := by
      rw [lookupA_cons, if_neg (fun h => hk h.symm)]
      rfl
    rw [hnone, Option.none_or, lookupA_spread, hkp, Option.none_or]

/-- Witness for C6: editing a document whose nested object is replaced
wholesale while the untouched key is retained. -/
theorem claim_C6_witness :
    ∃ res, getOneRaw (edit
        (RepoState.mk [("i1", [("a", Value.vObj [("x", Value.vNum ⟨1, 0⟩)]),
          ("b", Value.vStr "keep"), ("$id", Value.vStr "i1")])] [])
        "i1" [("a", Value.vObj [("y", Value.vNum ⟨2, 0⟩)])]) "i1" = some res ∧
      lookupA res "$id" = some (Value.vStr "i1") ∧
      (∀ key, key ≠ "$id" →
        (lookupA [("a", Value.vObj [("y", Value.vNum ⟨2, 0⟩)])] key).isSome →
        lookupA res key = lookupA [("a", Value.vObj [("y", Value.vNum ⟨2, 0⟩)])] key) ∧
      (∀ key, key ≠ "$id" →
        lookupA [("a", Value.vObj [("y", Value.vNum ⟨2, 0⟩)])] key = none →
        lookupA res key = lookupA [("a", Value.vObj [("x", Value.vNum ⟨1, 0⟩)]),
          ("b", Value.vStr "keep"), ("$id", Value.vStr "i1")] key) :=
  claim_C6_edit_shallow_merge
    (RepoState.mk [("i1", [("a", Value.vObj [("x", Value.vNum ⟨1, 0⟩)]),
      ("b", Value.vStr "keep"), ("$id", Value.vStr "i1")])] [])
    "i1"
    [("a", Value.vObj [("x", Value.vNum ⟨1, 0⟩)]),
      ("b", Value.vStr "keep"), ("$id", Value.vStr "i1")]
    [("a", Value.vObj [("y", Value.vNum ⟨2, 0⟩)])]
    rfl rfl rfl

/-! ## Claim C1: Invariant I1 (index completeness)

The inductive invariant ties one index to the entity store: well-formed maps,
forward and backward mutually consistent, no orphans, and every stored entity
filed under the encoding of its current value. -/

/-- Index/store consistency for one secondary index. -/
structure IxInv (store : List (String × Obj)) (ix : IndexState) : Prop where
  fwdKeysNodup : (ix.forward.map Prod.fst).Nodup
  bwdKeysNodup : (ix.backward.map Prod.fst).Nodup
  bucketsNonempty : ∀ b ∈ ix.forward, b.2 ≠ []
  bucketsNodup : ∀ b ∈ ix.forward, b.2.Nodup
  fwdToBwd : ∀ b ∈ ix.forward, ∀ x ∈ b.2, lookupA ix.backward x = some b.1
  fwdToStore : ∀ b ∈ ix.forward, ∀ x ∈ b.2, (lookupA store x).isSome
  bwdToFwd : ∀ q ∈ ix.backward, ∃ ids, lookupA ix.forward q.2 = some ids ∧ q.1 ∈ ids
  storeToBwd : ∀ p ∈ store, lookupA ix.backward p.1 =
    some (serializeKeyByValue (getByExpression (.vObj p.2) ix.keyPath))

/-- Whole-repository invariant. -/
structure RepoInv (st : RepoState) : Prop where
  storeKeysNodup : (st.store.map Prod.fst).Nodup
  storeStable : ∀ p ∈ st.store, JsonStableObj p.2
  ixInv : ∀ ix ∈ st.indexes, IxInv st.store ix

/-- An id absent from the store is also absent from both index maps. -/
theorem not_indexed_of_not_stored {store : List (String × Obj)} {ix : IndexState}
    (hinv : IxInv store ix) {id : String} (hid : lookupA store id = none) :
    lookupA ix.backward id = none ∧ ∀ b ∈ ix.forward, id ∉ b.2 := by
  have hbuckets : ∀ b ∈ ix.forward, id ∉ b.2 := by
    intro b hb hmem
    have := hinv.fwdToStore b hb id hmem
    rw [hid] at this
    simp at this
  refine ⟨?_, hbuckets⟩
  cases hbwd : lookupA ix.backward id with
  | none => rfl
  | some k =>
    exfalso
    have hmem := lookupA_eq_some hbwd
    obtain ⟨ids, hids, hin⟩ := hinv.bwdToFwd (id, k) hmem
    exact hbuckets (k, ids) (lookupA_eq_some hids) hin

theorem nodup_append_single {l : List String} {x : String}
    (h : l.Nodup) (hx : x ∉ l) : (l ++ [x]).Nodup := by
  rw [List.nodup_append]
  refine ⟨h, by simp, ?_⟩
  intro a ha hb
  simp only [List.mem_singleton] at hb
  subst hb
  exact hx ha

/-- `addItem` establishes the index invariant when the item's id is entirely
absent from the index and the store already holds the item (under an encoding
that agrees with the in-memory item's). -/
theorem addItem_establish {store' : List (String × Obj)} {ix : IndexState}
    {item itemStored : Obj}
    (hskn : (store'.map Prod.fst).Nodup)
    (hfk : (ix.forward.map Prod.fst).Nodup)
    (hbk : (ix.backward.map Prod.fst).Nodup)
    (hbne : ∀ b ∈ ix.forward, b.2 ≠ [])
    (hbnd : ∀ b ∈ ix.forward, b.2.Nodup)
    (hfb : ∀ b ∈ ix.forward, ∀ x ∈ b.2, lookupA ix.backward x = some b.1)
    (hfs : ∀ b ∈ ix.forward, ∀ x ∈ b.2, (lookupA store' x).isSome)
    (hbf : ∀ q ∈ ix.backward, ∃ ids, lookupA ix.forward q.2 = some ids ∧ q.1 ∈ ids)
    (hsb : ∀ p ∈ store', p.1 ≠ entityId item →
      lookupA ix.backward p.1 =
        some (serializeKeyByValue (getByExpression (.vObj p.2) ix.keyPath)))
    (hnew_fwd : ∀ b ∈ ix.forward, entityId item ∉ b.2)
    (hstore_item : lookupA store' (entityId item) = some itemStored)
    (henc : serializeKeyByValue (getByExpression (.vObj itemStored) ix.keyPath) =
      serializeKeyByValue (getByExpression (.vObj item) ix.keyPath)) :
    IxInv store' (addItem ix item) := by
  set nid := entityId item with hnid
  set k := serializeKeyByValue (getByExpression (.vObj item) ix.keyPath) with hk
  set ids := (lookupA ix.forward k).getD [] with hids
  have hids_spec : ids = [] ∨ ((k, ids) ∈ ix.forward ∧ lookupA ix.forward k = some ids) := by
    cases hl : lookupA ix.forward k with
    | none => left; rw [hids, hl]; rfl
    | some ids0 =>
      right
      have hEq : ids = ids0 := by rw [hids, hl]; rfl
      rw [hEq]
      exact ⟨lookupA_eq_some hl, rfl⟩
  have hnotin : nid ∉ ids := by
    rcases hids_spec with h | ⟨hmem, _⟩
    · rw [h]; simp
    · exact hnew_fwd _ hmem
  have hstep : addItem ix item =
      { ix with forward := setA ix.forward k (ids ++ [nid]),
                backward := setA ix.backward nid k } := by
    simp only [addItem]
    rw [← hk, ← hids, ← hnid, if_neg hnotin]
  rw [hstep]
  have hids_nodup : ids.Nodup := by
    rcases hids_spec with h | ⟨hmem, _⟩
    · rw [h]; exact List.nodup_nil
    · exact hbnd _ hmem
  have hids_sub : ∀ x ∈ ids, ∃ b ∈ ix.forward, b.1 = k ∧ x ∈ b.2 := by
    intro x hx
    rcases hids_spec with h | ⟨hmem, _⟩
    · rw [h] at hx; simp at hx
    · exact ⟨(k, ids), hmem, rfl, hx⟩
  constructor
  · exact nodupKeys_setA hfk
  · exact nodupKeys_setA hbk
  · intro b hb
    rcases mem_setA hb with ⟨hbold, _⟩ | hbnew
    · exact hbne b hbold
    · rw [hbnew]; simp
  · intro b hb
    rcases mem_setA hb with ⟨hbold, _⟩ | hbnew
    · exact hbnd b hbold
    · rw [hbnew]
      exact nodup_append_single hids_nodup hnotin
  · intro b hb x hx
    rcases mem_setA hb with ⟨hbold, hbne1⟩ | hbnew
    · have hxnid : x ≠ nid := by
        intro he
        exact hnew_fwd b hbold (he ▸ hx)
      rw [lookupA_setA, if_neg hxnid]
      exact hfb b hbold x hx
    · rw [hbnew] at hx ⊢
      rcases List.mem_append.mp hx with hx | hx
      · have hxnid : x ≠ nid := fun he => hnotin (he ▸ hx)
        rw [lookupA_setA, if_neg hxnid]
        obtain ⟨b0, hb0, hb0k, hxin⟩ := hids_sub x hx
        have := hfb b0 hb0 x hxin
        rw [hb0k] at this
        exact this
      · simp only [List.mem_singleton] at hx
        subst hx
        rw [lookupA_setA, if_pos rfl]
  · intro b hb x hx
    rcases mem_setA hb with ⟨hbold, _⟩ | hbnew
    · exact hfs b hbold x hx
    · rw [hbnew] at hx
      rcases List.mem_append.mp hx with hx | hx
      · obtain ⟨b0, hb0, _, hxin⟩ := hids_sub x hx
        exact hfs b0 hb0 x hxin
      · simp only [List.mem_singleton] at hx
        subst hx
        rw [hstore_item]
        rfl
  · intro q hq
    rcases mem_setA hq with ⟨hqold, hqne⟩ | hqnew
    · obtain ⟨ids0, hids0, hqin⟩ := hbf q hqold
      by_cases hqk : q.2 = k
      · rw [hqk] at hids0
        have hids_eq : ids = ids0 := by rw [hids, hids0]; rfl
        refine ⟨ids ++ [nid], ?_, ?_⟩
        · rw [hqk, lookupA_setA, if_pos rfl]
        · exact List.mem_append.mpr (Or.inl (hids_eq ▸ hqin))
      · refine ⟨ids0, ?_, hqin⟩
        rw [lookupA_setA, if_neg hqk]
        exact hids0
    · rw [hqnew]
      refine ⟨ids ++ [nid], ?_, ?_⟩
      · rw [lookupA_setA, if_pos rfl]
      · exact List.mem_append.mpr (Or.inr (by simp))
  · intro p hp
    by_cases hpid : p.1 = nid
    · have hlp : lookupA store' p.1 = some p.2 := lookupA_of_mem_nodup hskn hp
      rw [hpid] at hlp
      rw [hstore_item] at hlp
      have hp2 : p.2 = itemStored := (Option.some.inj hlp).symm
      rw [hpid, lookupA_setA, if_pos rfl]
      rw [hp2, henc]
    · rw [lookupA_setA, if_neg hpid]
      exact hsb p hp hpid

/-- `removeItem` scrubs an id from the index and preserves every structural
component of the invariant, leaving other backward entries untouched. -/
theorem removeItem_spec {store : List (String × Obj)} {ix : IndexState}
    (hinv : IxInv store ix) (id : String) :
    (removeItem ix id).keyPath = ix.keyPath ∧
    ((removeItem ix id).forward.map Prod.fst).Nodup ∧
    ((removeItem ix id).backward.map Prod.fst).Nodup ∧
    (∀ b ∈ (removeItem ix id).forward, b.2 ≠ []) ∧
    (∀ b ∈ (removeItem ix id).forward, b.2.Nodup) ∧
    (∀ b ∈ (removeItem ix id).forward, ∀ x ∈ b.2,
      lookupA (removeItem ix id).backward x = some b.1) ∧
    (∀ b ∈ (removeItem ix id).forward, ∀ x ∈ b.2,
      x ≠ id ∧ (lookupA store x).isSome) ∧
    (∀ q ∈ (removeItem ix id).backward,
      ∃ ids, lookupA (removeItem ix id).forward q.2 = some ids ∧ q.1 ∈ ids) ∧
    lookupA (removeItem ix id).backward id = none ∧
    (∀ x, x ≠ id → lookupA (removeItem ix id).backward x = lookupA ix.backward x) := by
  cases hbwd : lookupA ix.backward id with
  | none =>
    have hri : removeItem ix id = ix := by
      unfold removeItem
      rw [hbwd]
    rw [hri]
    refine ⟨rfl, hinv.fwdKeysNodup, hinv.bwdKeysNodup, hinv.bucketsNonempty,
      hinv.bucketsNodup, hinv.fwdToBwd, ?_, hinv.bwdToFwd, hbwd, fun _ _ => rfl⟩
    intro b hb x hx
    refine ⟨?_, hinv.fwdToStore b hb x hx⟩
    intro he
    rw [he] at hx
    have := hinv.fwdToBwd b hb id hx
    rw [hbwd] at this
    exact Option.noConfusion this
  | some k =>
    have hmemb : (id, k) ∈ ix.backward := lookupA_eq_some hbwd
    obtain ⟨ids0, hids0, hidin⟩ := hinv.bwdToFwd (id, k) hmemb
    have hkmem : (k, ids0) ∈ ix.forward := lookupA_eq_some hids0
    have hgetD : (lookupA ix.forward k).getD [] = ids0 := by rw [hids0]; rfl
    have hnd0 : ids0.Nodup := hinv.bucketsNodup _ hkmem
    have hstep : removeItem ix id =
        { keyPath := ix.keyPath,
          forward := if (ids0.erase id).isEmpty then eraseA ix.forward k
            else setA ix.forward k (ids0.erase id),
          backward := eraseA ix.backward id } := by
      unfold removeItem
      rw [hbwd]
      show (if id ∈ (lookupA ix.forward k).getD [] then _ else ix) = _
      rw [hgetD, if_pos hidin]
    rw [hstep]
    have hmem_erase : ∀ x, x ∈ ids0.erase id ↔ x ≠ id ∧ x ∈ ids0 :=
      fun x => hnd0.mem_erase_iff
    have hFmem : ∀ b, b ∈ (if (ids0.erase id).isEmpty then eraseA ix.forward k
        else setA ix.forward k (ids0.erase id)) →
        (b ∈ ix.forward ∧ b.1 ≠ k) ∨ (b = (k, ids0.erase id) ∧ ¬(ids0.erase id).isEmpty) := by
      intro b hb
      by_cases hemp : (ids0.erase id).isEmpty
      · rw [if_pos hemp] at hb
        exact Or.inl (mem_eraseA hb)
      · rw [if_neg hemp] at hb
        rcases mem_setA hb with h | h
        · exact Or.inl h
        · exact Or.inr ⟨h, hemp⟩
    have hFlook : ∀ x, lookupA (if (ids0.erase id).isEmpty then eraseA ix.forward k
        else setA ix.forward k (ids0.erase id)) x =
        if x = k then (if (ids0.erase id).isEmpty then none else some (ids0.erase id))
        else lookupA ix.forward x := by
      intro x
      by_cases hemp : (ids0.erase id).isEmpty
      · rw [if_pos hemp, if_pos hemp, lookupA_eraseA]
      · rw [if_neg hemp, if_neg hemp, lookupA_setA]
    have hBlook : ∀ x, lookupA (eraseA ix.backward id) x =
        if x = id then none else lookupA ix.backward x := fun x => lookupA_eraseA _ _ _
    have hbucket_ne : ∀ b ∈ ix.forward, b.1 ≠ k → ∀ x ∈ b.2, x ≠ id := by
      intro b hb hbk x hx he
      have := hinv.fwdToBwd b hb x hx
      rw [he, hbwd] at this
      exact hbk (Option.some.inj this).symm
    refine ⟨rfl, ?_, nodupKeys_eraseA hinv.bwdKeysNodup, ?_, ?_, ?_, ?_, ?_, ?_, ?_⟩
    · by_cases hemp : (ids0.erase id).isEmpty
      · rw [if_pos hemp]
        exact nodupKeys_eraseA hinv.fwdKeysNodup
      · rw [if_neg hemp]
        exact nodupKeys_setA hinv.fwdKeysNodup
    · intro b hb
      rcases hFmem b hb with ⟨hbold, _⟩ | ⟨hbnew, hemp⟩
      · exact hinv.bucketsNonempty b hbold
      · rw [hbnew]
        intro he
        exact hemp (List.isEmpty_iff.mpr he)
    · intro b hb
      rcases hFmem b hb with ⟨hbold, _⟩ | ⟨hbnew, _⟩
      · exact hinv.bucketsNodup b hbold
      · rw [hbnew]
        exact hnd0.erase id
    · intro b hb x hx
      rcases hFmem b hb with ⟨hbold, hbk⟩ | ⟨hbnew, _⟩
      · rw [hBlook, if_neg (hbucket_ne b hbold hbk x hx)]
        exact hinv.fwdToBwd b hbold x hx
      · rw [hbnew] at hx ⊢
        have hx' := (hmem_erase x).mp hx
        rw [hBlook, if_neg hx'.1]
        have := hinv.fwdToBwd (k, ids0) hkmem x hx'.2
        exact this
    · intro b hb x hx
      rcases hFmem b hb with ⟨hbold, hbk⟩ | ⟨hbnew, _⟩
      · exact ⟨hbucket_ne b hbold hbk x hx, hinv.fwdToStore b hbold x hx⟩
      · rw [hbnew] at hx
        have hx' := (hmem_erase x).mp hx
        exact ⟨hx'.1, hinv.fwdToStore (k, ids0) hkmem x hx'.2⟩
    · intro q hq
      obtain ⟨hqold, hqid⟩ := mem_eraseA hq
      obtain ⟨ids1, hids1, hqin⟩ := hinv.bwdToFwd q hqold
      by_cases hqk : q.2 = k
      · rw [hqk] at hids1
        have hEq : ids1 = ids0 := Option.some.inj (hids1.symm.trans hids0)
        refine ⟨ids0.erase id, ?_, ?_⟩
        · rw [hFlook, hqk, if_pos rfl, if_neg ?_]
          intro hemp
          have : q.1 ∈ ids0.erase id := (hmem_erase q.1).mpr ⟨hqid, hEq ▸ hqin⟩
          rw [List.isEmpty_iff] at hemp
          rw [hemp] at this
          exact List.not_mem_nil _ this
        · exact (hmem_erase q.1).mpr ⟨hqid, hEq ▸ hqin⟩
      · exact ⟨ids1, by rw [hFlook, if_neg hqk]; exact hids1, hqin⟩
    · rw [hBlook, if_pos rfl]
    · intro x hx
      rw [hBlook, if_neg hx]

theorem entityId_spread (v : Obj) (id : String) :
    entityId (spread v [("$id", Value.vStr id)]) = id := by
  unfold entityId
  rw [lookupA_spread]
  rfl

/-- `insert` with a fresh id and a round-trip-stable payload preserves the
repository invariant. -/
theorem insert_preserves {st : RepoState} {id : String} {v : Obj}
    (hinv : RepoInv st) (hfresh : lookupA st.store id = none)
    (hstable : JsonStableObj v) : RepoInv (insert st id v).1 := by
  have hitem : JsonStableObj (spread v [("$id", Value.vStr id)]) :=
    spread_stable hstable (singleton_id_stable id)
  have hrt : roundtripObj (spread v [("$id", Value.vStr id)]) =
      spread v [("$id", Value.vStr id)] := hitem
  have hid : entityId (spread v [("$id", Value.vStr id)]) = id := entityId_spread v id
  show RepoInv
    { store := setA st.store id (roundtripObj (spread v [("$id", Value.vStr id)])),
      indexes := st.indexes.map (fun ix => addItem ix (spread v [("$id", Value.vStr id)])) }
  rw [hrt]
  constructor
  · exact nodupKeys_setA hinv.storeKeysNodup
  · intro p hp
    rcases mem_setA hp with ⟨hpold, _⟩ | hpnew
    · exact hinv.storeStable p hpold
    · rw [hpnew]
      exact hitem
  · intro ix' hix'
    simp only [List.mem_map] at hix'
    obtain ⟨ix, hmem, hix_eq⟩ := hix'
    rw [← hix_eq]
    have hIx := hinv.ixInv ix hmem
    obtain ⟨_, hf_none⟩ := not_indexed_of_not_stored hIx hfresh
    refine addItem_establish
      (nodupKeys_setA hinv.storeKeysNodup)
      hIx.fwdKeysNodup hIx.bwdKeysNodup hIx.bucketsNonempty hIx.bucketsNodup
      hIx.fwdToBwd ?_ hIx.bwdToFwd ?_ ?_ ?_ rfl
    · intro b hb x hx
      rw [lookupA_setA]
      by_cases hxe : x = id
      · rw [if_pos hxe]; rfl
      · rw [if_neg hxe]
        exact hIx.fwdToStore b hb x hx
    · intro p hp hpne
      rw [hid] at hpne
      rcases mem_setA hp with ⟨hpold, _⟩ | hpnew
      · exact hIx.storeToBwd p hpold
      · exact absurd (by rw [hpnew]) hpne
    · rw [hid]
      exact hf_none
    · rw [hid, lookupA_setA, if_pos rfl]

/-- `edit` with a round-trip-stable patch preserves the repository
invariant (a missing id throws without changing state). -/
theorem edit_preserves {st : RepoState} {id : String} {v : Obj}
    (hinv : RepoInv st) (hstable : JsonStableObj v) : RepoInv (edit st id v) := by
  cases hold : lookupA st.store id with
  | none =>
    unfold edit
    rw [hold]
    exact hinv
  | some oldData =>
    have hold_stable : JsonStableObj oldData := hinv.storeStable _ (lookupA_eq_some hold)
    have hitem : JsonStableObj (spread (spread oldData v) [("$id", Value.vStr id)]) :=
      spread_stable (spread_stable hold_stable hstable) (singleton_id_stable id)
    have hrt : roundtripObj (spread (spread oldData v) [("$id", Value.vStr id)]) =
        spread (spread oldData v) [("$id", Value.vStr id)] := hitem
    have hid : entityId (spread (spread oldData v) [("$id", Value.vStr id)]) = id :=
      entityId_spread _ id
    have hstep : edit st id v =
        { store := setA st.store id (spread (spread oldData v) [("$id", Value.vStr id)]),
          indexes := st.indexes.map
            (fun ix => addItem (removeItem ix id)
              (spread (spread oldData v) [("$id", Value.vStr id)])) } := by
      unfold edit
      rw [hold]
      show ({ store := setA st.store id
                (roundtripObj (spread (spread oldData v) [("$id", Value.vStr id)])),
              indexes := _ } : RepoState) = _
      rw [hrt]
    rw [hstep]
    constructor
    · exact nodupKeys_setA hinv.storeKeysNodup
    · intro p hp
      rcases mem_setA hp with ⟨hpold, _⟩ | hpnew
      · exact hinv.storeStable p hpold
      · rw [hpnew]
        exact hitem
    · intro ix' hix'
      simp only [List.mem_map] at hix'
      obtain ⟨ix, hmem, hix_eq⟩ := hix'
      rw [← hix_eq]
      obtain ⟨hkp, hfk, hbk, hbne, hbnd, hfb, hfsx, hbf, _, hbother⟩ :=
        removeItem_spec (hinv.ixInv ix hmem) id
      refine addItem_establish
        (nodupKeys_setA hinv.storeKeysNodup)
        hfk hbk hbne hbnd hfb ?_ hbf ?_ ?_ ?_ rfl
      · intro b hb x hx
        rw [lookupA_setA]
        by_cases hxe : x = id
        · rw [if_pos hxe]; rfl
        · rw [if_neg hxe]
          exact (hfsx b hb x hx).2
      · intro p hp hpne
        rw [hid] at hpne
        rw [hkp]
        rcases mem_setA hp with ⟨hpold, _⟩ | hpnew
        · rw [hbother p.1 hpne]
          exact hinv.ixInv ix hmem |>.storeToBwd p hpold
        · exact absurd (by rw [hpnew]) hpne
      · rw [hid]
        intro b hb hmem'
        exact (hfsx b hb id hmem').1 rfl
      · rw [hid, lookupA_setA, if_pos rfl]

/-- `delete` preserves the repository invariant (a missing id throws without
changing state). -/
theorem delete_preserves {st : RepoState} (hinv : RepoInv st) (id : String) :
    RepoInv (delete st id) := by
  cases hold : lookupA st.store id with
  | none =>
    unfold delete
    rw [hold]
    exact hinv
  | some oldData =>
    have hstep : delete st id =
        { store := eraseA st.store id,
          indexes := st.indexes.map (fun ix => removeItem ix id) } := by
      unfold delete
      rw [hold]
    rw [hstep]
    constructor
    · exact nodupKeys_eraseA hinv.storeKeysNodup
    · intro p hp
      exact hinv.storeStable p (mem_eraseA hp).1
    · intro ix' hix'
      simp only [List.mem_map] at hix'
      obtain ⟨ix, hmem, hix_eq⟩ := hix'
      rw [← hix_eq]
      obtain ⟨hkp, hfk, hbk, hbne, hbnd, hfb, hfsx, hbf, _, hbother⟩ :=
        removeItem_spec (hinv.ixInv ix hmem) id
      refine ⟨hfk, hbk, hbne, hbnd, hfb, ?_, hbf, ?_⟩
      · intro b hb x hx
        rw [lookupA_eraseA, if_neg (hfsx b hb x hx).1]
        exact (hfsx b hb x hx).2
      · intro p hp
        obtain ⟨hpold, hpne⟩ := mem_eraseA hp
        rw [hkp, hbother p.1 hpne]
        exact hinv.ixInv ix hmem |>.storeToBwd p hpold

/-- A freshly opened repository satisfies the invariant. -/
theorem openRepo_inv (paths : List String) : RepoInv (openRepo paths) := by
  refine ⟨List.nodup_nil, ?_, ?_⟩
  · intro p hp
    exact absurd hp (List.not_mem_nil p)
  · intro ix hix
    simp only [openRepo, List.mem_map] at hix
    obtain ⟨p, _, hpe⟩ := hix
    rw [← hpe]
    refine ⟨List.nodup_nil, List.nodup_nil, ?_, ?_, ?_, ?_, ?_, ?_⟩
    · intro b hb; exact absurd hb (List.not_mem_nil b)
    · intro b hb; exact absurd hb (List.not_mem_nil b)
    · intro b hb; exact absurd hb (List.not_mem_nil b)
    · intro b hb; exact absurd hb (List.not_mem_nil b)
    · intro q hq; exact absurd hq (List.not_mem_nil q)
    · intro q hq; exact absurd hq (List.not_mem_nil q)

/-- The invariant is preserved by whole operation sequences. -/
theorem runOps_preserves {st : RepoState} (hinv : RepoInv st) {ops : List Op}
    (hfresh : FreshOps st ops) (hstable : StableOps ops) :
    RepoInv (runOps st ops) := by
  induction ops generalizing st with
  | nil => exact hinv
  | cons op rest ih =>
    cases op with
    | ins id v =>
      obtain ⟨hf1, hfrest⟩ := hfresh
      obtain ⟨hs1, hsrest⟩ := hstable
      exact ih (insert_preserves hinv hf1 hs1) hfrest hsrest
    | ed id v =>
      obtain ⟨_, hfrest⟩ := hfresh
      obtain ⟨hs1, hsrest⟩ := hstable
      exact ih (edit_preserves hinv hs1) hfrest hsrest
    | del id =>
      obtain ⟨_, hfrest⟩ := hfresh
      exact ih (delete_preserves hinv id) hfrest hstable

theorem nodup_const_length_le_one {l : List String} {c : String}
    (hnd : l.Nodup) (hall : ∀ x ∈ l, x = c) : l.length ≤ 1 := by
  cases l with
  | nil => simp
  | cons a t =>
    cases t with
    | nil => simp
    | cons b u =>
      exfalso
      have ha : a = c := hall a (by simp)
      have hb : b = c := hall b (by simp)
      rw [List.nodup_cons] at hnd
      exact hnd.1 (by rw [ha, ← hb]; simp)

/-- The invariant implies the invariant I1 of the spec: every stored entity
appears in exactly one bucket per index, and that bucket's key — as well as
the backward entry — is the encoding of the entity's current value. -/
theorem I1_of_inv {st : RepoState} (hinv : RepoInv st) :
    ∀ p ∈ st.store, ∀ ix ∈ st.indexes,
      ((ix.forward.filter (fun b => p.1 ∈ b.2)).length = 1 ∧
       lookupA ix.backward p.1 =
         some (serializeKeyByValue (getByExpression (.vObj p.2) ix.keyPath)) ∧
       ∀ b ∈ ix.forward, p.1 ∈ b.2 →
         b.1 = serializeKeyByValue (getByExpression (.vObj p.2) ix.keyPath)) := by
  intro p hp ix hix
  have hIx := hinv.ixInv ix hix
  have hbwd := hIx.storeToBwd p hp
  have hkey : ∀ b ∈ ix.forward, p.1 ∈ b.2 →
      b.1 = serializeKeyByValue (getByExpression (.vObj p.2) ix.keyPath) := by
    intro b hb hpb
    have := hIx.fwdToBwd b hb p.1 hpb
    rw [hbwd] at this
    exact (Option.some.inj this).symm
  refine ⟨?_, hbwd, hkey⟩
  obtain ⟨ids, hids, hin⟩ := hIx.bwdToFwd
    (p.1, serializeKeyByValue (getByExpression (.vObj p.2) ix.keyPath))
    (lookupA_eq_some hbwd)
  have hkmem : (serializeKeyByValue (getByExpression (.vObj p.2) ix.keyPath), ids) ∈
      ix.forward := lookupA_eq_some hids
  have hFmem : (serializeKeyByValue (getByExpression (.vObj p.2) ix.keyPath), ids) ∈
      ix.forward.filter (fun b => p.1 ∈ b.2) :=
    List.mem_filter.mpr ⟨hkmem, decide_eq_true hin⟩
  have hge : 1 ≤ (ix.forward.filter (fun b => p.1 ∈ b.2)).length :=
    List.length_pos.mpr (List.ne_nil_of_mem hFmem)
  have hnd : ((ix.forward.filter (fun b => p.1 ∈ b.2)).map Prod.fst).Nodup :=
    List.Nodup.sublist ((List.filter_sublist ix.forward).map Prod.fst) hIx.fwdKeysNodup
  have hall : ∀ x ∈ (ix.forward.filter (fun b => p.1 ∈ b.2)).map Prod.fst,
      x = serializeKeyByValue (getByExpression (.vObj p.2) ix.keyPath) := by
    intro x hx
    obtain ⟨b, hb, hbx⟩ := List.mem_map.mp hx
    obtain ⟨hbf, hbp⟩ := List.mem_filter.mp hb
    rw [← hbx]
    exact hkey b hbf (of_decide_eq_true hbp)
  have hle := nodup_const_length_le_one hnd hall
  rw [List.length_map] at hle
  omega

/-- C1 (amended): after any finite sequence of sequential insert (fresh id),
edit and delete operations on an open repository whose payloads survive the
JSON round-trip unchanged, invariant I1 holds: every stored entity's id lies
in exactly one forward bucket of every index, the backward entry for the id
is the encoding of the value at the index's field path on the stored entity,
and any bucket holding the id has that encoding as its key. -/
theorem claim_C1_invariant_amended (paths : List String) (ops : List Op)
    (hfresh : FreshOps (openRepo paths) ops) (hstable : StableOps ops) :
    ∀ p ∈ (runOps (openRepo paths) ops).store,
      ∀ ix ∈ (runOps (openRepo paths) ops).indexes,
        ((ix.forward.filter (fun b => p.1 ∈ b.2)).length = 1 ∧
         lookupA ix.backward p.1 =
           some (serializeKeyByValue (getByExpression (.vObj p.2) ix.keyPath)) ∧
         ∀ b ∈ ix.forward, p.1 ∈ b.2 →
           b.1 = serializeKeyByValue (getByExpression (.vObj p.2) ix.keyPath)) :=
  I1_of_inv (runOps_preserves (openRepo_inv paths) hfresh hstable)

/-- Witness for C1: an insert followed by an edit of a string field, on a
repository with one index on that field, satisfies both hypotheses and I1. -/
theorem claim_C1_witness :
    FreshOps (openRepo ["name"])
      [Op.ins "i1" [("name", Value.vStr "David")],
       Op.ed "i1" [("name", Value.vStr "Dave")]] ∧
    StableOps
      [Op.ins "i1" [("name", Value.vStr "David")],
       Op.ed "i1" [("name", Value.vStr "Dave")]] ∧
    ∀ p ∈ (runOps (openRepo ["name"])
        [Op.ins "i1" [("name", Value.vStr "David")],
         Op.ed "i1" [("name", Value.vStr "Dave")]]).store,
      ∀ ix ∈ (runOps (openRepo ["name"])
          [Op.ins "i1" [("name", Value.vStr "David")],
           Op.ed "i1" [("name", Value.vStr "Dave")]]).indexes,
        ((ix.forward.filter (fun b => p.1 ∈ b.2)).length = 1 ∧
         lookupA ix.backward p.1 =
           some (serializeKeyByValue (getByExpression (.vObj p.2) ix.keyPath)) ∧
         ∀ b ∈ ix.forward, p.1 ∈ b.2 →
           b.1 = serializeKeyByValue (getByExpression (.vObj p.2) ix.keyPath)) :=
  ⟨⟨rfl, trivial, trivial⟩, ⟨rfl, rfl, trivial⟩,
    claim_C1_invariant_amended ["name"]
      [Op.ins "i1" [("name", Value.vStr "David")],
       Op.ed "i1" [("name", Value.vStr "Dave")]]
      ⟨rfl, trivial, trivial⟩ ⟨rfl, rfl, trivial⟩⟩

/-- Counterexample for C1 as stated: without the round-trip-stability proviso
the invariant fails. Inserting `{d: new Date(0)}` into a repository indexed on
`d` files the entity under the charwise encoding `"F"` of the timestamp `0`,
but the stored entity (read back from its JSON file) carries the ISO string
`"1970-01-01T00:00:00.000Z"` at `d`, whose encoding is the string itself —
the backward entry does not match the encoding of the value actually present
on the stored entity. -/
theorem claim_C1_counterexample :
    ¬ (∀ paths ops, FreshOps (openRepo paths) ops →
        ∀ p ∈ (runOps (openRepo paths) ops).store,
          ∀ ix ∈ (runOps (openRepo paths) ops).indexes,
            ((ix.forward.filter (fun b => p.1 ∈ b.2)).length = 1 ∧
             lookupA ix.backward p.1 =
               some (serializeKeyByValue (getByExpression (.vObj p.2) ix.keyPath)) ∧
             ∀ b ∈ ix.forward, p.1 ∈ b.2 →
               b.1 = serializeKeyByValue (getByExpression (.vObj p.2) ix.keyPath))) := by
  intro h
  have hstore : (runOps (openRepo ["d"]) [Op.ins "i1" [("d", Value.vDate 0)]]).store =
      [("i1", [("d", Value.vStr "1970-01-01T00:00:00.000Z"),
               ("$id", Value.vStr "i1")])] := rfl
  have hix : (runOps (openRepo ["d"]) [Op.ins "i1" [("d", Value.vDate 0)]]).indexes =
      [IndexState.mk "d" [("F", ["i1"])] [("i1", "F")]] := rfl
  have hc := h ["d"] [Op.ins "i1" [("d", Value.vDate 0)]] ⟨rfl, trivial⟩
    ("i1", [("d", Value.vStr "1970-01-01T00:00:00.000Z"), ("$id", Value.vStr "i1")])
    (by rw [hstore]; exact List.mem_cons_self _ _)
    (IndexState.mk "d" [("F", ["i1"])] [("i1", "F")])
    (by rw [hix]; exact List.mem_cons_self _ _)
  have h3 : some ("F" : String) = some ("1970-01-01T00:00:00.000Z" : String) := hc.2.1
  exact absurd (Option.some.inj h3) (by decide)

end LocalDbModel
